import Mathlib

/-!
# Detective Quest: the mansion map as a binary tree

A shallow embedding of `algoritmos_avancados.c` and a verification of its
behaviour.

Modelling conventions

* A `Sala *` pointer is a value of the inductive type `Sala`: `nulo` is `NULL`,
  `no nome esq dir` is a pointer to a node holding the three fields.  The map is
  built once and owns its children exclusively, so the heap is a finite tree.
* A non-null cursor (`atual`) is a `Comodo`: the three fields of the node it
  points to.
* Bytes of `stdin` are natural numbers (character codes of the "C" locale).
* Every `printf` call is one `Msg`; `Msg.texto` gives the exact text.
* The dynamic array `visitadas[0 .. cont)` is the list of its written entries,
  `cont` is its length, `capacidade` is tracked next to it.  `Vetor` models the
  block of memory itself, slot by slot, and `Estado.vetorOk` ties the two.
  `malloc` and `realloc` are assumed to succeed; `size_t` does not wrap (a log
  of `2^61` entries would need a tree that does not fit in memory).
* `while (1)` is a loop with fuel; `explorarSalas` supplies more fuel than the
  loop can use, and `laco_termina` shows that this is always enough.
-/

namespace DetectiveQuest

/-! ## Data model -/

/-- A `Sala *`: either `NULL` or a node with its name and two children. -/
inductive Sala where
  | nulo : Sala
  | no (nome : String) (esq dir : Sala) : Sala
deriving DecidableEq, Repr

/-- The node a non-null `Sala *` points to (`struct Sala`). -/
structure Comodo where
  nome : String
  esq : Sala
  dir : Sala
deriving DecidableEq, Repr

/-- Test `p != NULL`. -/
def Sala.existe : Sala → Bool
  | .nulo => false
  | .no _ _ _ => true

/-- Dereference of a pointer, when it is not `NULL`. -/
def Sala.comodo : Sala → Option Comodo
  | .nulo => none
  | .no nome esq dir => some ⟨nome, esq, dir⟩

/-- The pointer to a node. -/
def Comodo.sala (c : Comodo) : Sala := .no c.nome c.esq c.dir

/-- Number of nodes of the tree. -/
def Sala.tamanho : Sala → Nat
  | .nulo => 0
  | .no _ esq dir => esq.tamanho + dir.tamanho + 1

/-- Side of a child link. -/
inductive Lado where
  | esq : Lado
  | dir : Lado
deriving DecidableEq, Repr

/-- The address of a node: the links followed from the root to reach it.  In a
tree every node has exactly one address, so addresses stand for pointers. -/
abbrev Endereco := List Lado

/-- The pointer found by following an address from `raiz` (`NULL` when the
path leaves the tree). -/
def Sala.seguir : Sala → Endereco → Sala
  | s, [] => s
  | .nulo, _ :: _ => .nulo
  | .no _ esq _, Lado.esq :: e => esq.seguir e
  | .no _ _ dir, Lado.dir :: e => dir.seguir e

/-! ## `strdup_port`, `criarSala`, `liberarSalas` -/

/-- Function `strdup_port`: a fresh copy of the string. -/
def strdup_port (s : String) : String := s

/-- Function `criarSala`: a new room with the given name and no children. -/
def criarSala (nome : String) : Sala := .no (strdup_port nome) .nulo .nulo

/-- The assignments `p->esq = e; p->dir = d;`. -/
def Sala.ligar : Sala → Sala → Sala → Sala
  | .nulo, _, _ => .nulo
  | .no nome _ _, e, d => .no nome e d

/-- One call of `free`: on the name owned by the node at an address, or on the
node itself. -/
inductive Liberacao where
  | nome (e : Endereco) : Liberacao
  | sala (e : Endereco) : Liberacao
deriving DecidableEq, Repr

/-- Function `liberarSalas`, called on the node at address `e`: the `free`
calls it makes, in order. -/
def liberarSalas : Sala → Endereco → List Liberacao
  | .nulo, _ => []
  | .no _ esq dir, e =>
    liberarSalas esq (e ++ [Lado.esq]) ++ liberarSalas dir (e ++ [Lado.dir])
      ++ [Liberacao.nome e, Liberacao.sala e]

/-- The nodes released by a sequence of `free` calls, in order. -/
def salasLiberadas (l : List Liberacao) : List Endereco :=
  l.filterMap fun x => match x with
    | .sala e => some e
    | .nome _ => none

/-- The names released by a sequence of `free` calls, in order. -/
def nomesLiberados (l : List Liberacao) : List Endereco :=
  l.filterMap fun x => match x with
    | .nome e => some e
    | .sala _ => none

/-! ## Console -/

/-- One `printf` call of the program. -/
inductive Msg where
  | mapaVazio : Msg
  | hallDeEntrada (nome : String) : Msg
  | semSaidas (nome : String) : Msg
  | estaNaSala (nome : String) : Msg
  | escolhaCaminho : Msg
  | opcaoEsquerda (nome : String) : Msg
  | opcaoDireita (nome : String) : Msg
  | opcaoSair : Msg
  | digite : Msg
  | entradaEncerrada : Msg
  | entradaInvalida : Msg
  | optouSair : Msg
  | semEsquerda : Msg
  | semDireita : Msg
  | opcaoInvalida : Msg
  | entrou (nome : String) : Msg
  | cabecalho : Msg
  | visitada (nome : String) : Msg
  | seta : Msg
  | rodape : Msg
  | boasVindas : Msg
  | instrucoes : Msg
  | despedida : Msg
deriving DecidableEq, Repr

/-- The text written by a `printf` call. -/
def Msg.texto : Msg → String
  | .mapaVazio => "Mapa vazio. Não há salas para explorar.\n"
  | .hallDeEntrada nome => "Você está no Hall de entrada: " ++ nome ++ "\n"
  | .semSaidas nome => "\nVocê chegou a um cômodo sem saídas (" ++ nome ++ ").\n"
  | .estaNaSala nome => "\nVocê está na sala: " ++ nome ++ "\n"
  | .escolhaCaminho => "Escolha um caminho:\n"
  | .opcaoEsquerda nome => "  (e) Esquerda -> " ++ nome ++ "\n"
  | .opcaoDireita nome => "  (d) Direita  -> " ++ nome ++ "\n"
  | .opcaoSair => "  (s) Sair da exploração\n"
  | .digite => "Digite sua escolha (e/d/s): "
  | .entradaEncerrada => "\nEntrada encerrada. Saindo...\n"
  | .entradaInvalida => "Entrada inválida. Tente novamente.\n"
  | .optouSair => "Você optou por sair da exploração.\n"
  | .semEsquerda => "Não há caminho à esquerda nesta sala. Escolha outra opção.\n"
  | .semDireita => "Não há caminho à direita nesta sala. Escolha outra opção.\n"
  | .opcaoInvalida => "Opção inválida. Use 'e', 'd' ou 's'.\n"
  | .entrou nome => "Você entrou em: " ++ nome ++ "\n"
  | .cabecalho => "\n--- Caminho percorrido ---\n"
  | .visitada nome => nome
  | .seta => " -> "
  | .rodape => "\n-------------------------\n"
  | .boasVindas => "Bem-vindo(a) ao Detective Quest - exploração da mansão.\n"
  | .instrucoes =>
    "Você começará no Hall de entrada. Explore escolhendo 'e' (esquerda), 'd' (direita) ou 's' (sair).\n\n"
  | .despedida => "\nExploração encerrada. Obrigado por jogar Detective Quest (demo).\n"

/-- Function `isspace` of the "C" locale: space, `\t`, `\n`, `\v`, `\f`, `\r`. -/
def isspace (c : Nat) : Bool := c == 32 || (9 ≤ c && c ≤ 13)

/-- Function `tolower` of the "C" locale: `A`..`Z` to `a`..`z`. -/
def tolower (c : Nat) : Nat := if 65 ≤ c ∧ c ≤ 90 then c + 32 else c

/-- Function `strlen` on a buffer: the number of bytes before the first NUL (the
buffer is followed by its terminator). -/
def strlen : List Nat → Nat
  | [] => 0
  | c :: cs => if c = 0 then 0 else strlen cs + 1

/-- The bytes `fgets` stores when it may still store `k` of them: it stops
after a newline, at the end of the input, or when `k` bytes are stored.
Returns the bytes stored and the input left. -/
def lerLinha : Nat → List Nat → List Nat × List Nat
  | 0, resto => ([], resto)
  | _ + 1, [] => ([], [])
  | k + 1, c :: resto =>
    if c = 10 then ([c], resto)
    else ((lerLinha k resto).1.cons c, (lerLinha k resto).2)

/-- Function `fgets(entrada, tam, stdin)`: `none` is the `NULL` returned at
end of input, otherwise the bytes stored in the buffer and the input left. -/
def fgets (tam : Nat) (stdin : List Nat) : Option (List Nat × List Nat) :=
  match stdin with
  | [] => none
  | _ :: _ => some (lerLinha (tam - 1) stdin)

/-- The `for` loop of lines 121-123 over the bytes `entrada[0 .. strlen)`: the
first byte that is not white space, lower-cased, or `0` when there is none. -/
def primeiraUtil : List Nat → Nat
  | [] => 0
  | c :: cs => if !isspace c then tolower c else primeiraUtil cs

/-- The value of `opc` after lines 120-123. -/
def opc (entrada : List Nat) : Nat :=
  primeiraUtil (entrada.take (strlen entrada))

/-! ## `explorarSalas` -/

/-- The variables of `explorarSalas` together with the console. -/
structure Estado where
  atual : Comodo
  visitadas : List String
  capacidade : Nat
  stdin : List Nat
  stdout : List Msg
deriving DecidableEq, Repr

/-- The variable `cont`: the number of entries written to `visitadas`. -/
def Estado.cont (s : Estado) : Nat := s.visitadas.length

/-- A `printf` call. -/
def Estado.printf (s : Estado) (m : Msg) : Estado :=
  { s with stdout := s.stdout ++ [m] }

/-- The capacity after the growth test `if (cont + 1 > capacidade)`. -/
def crescer (cont capacidade : Nat) : Nat :=
  if cont + 1 > capacidade then capacidade * 2 else capacidade

/-- Lines 87-92 and 152-157: grow the array when it is full, then
`visitadas[cont++] = atual->nome`. -/
def Estado.registrar (s : Estado) : Estado :=
  { s with
    capacidade := crescer s.cont s.capacidade
    visitadas := s.visitadas ++ [s.atual.nome] }

/-- How one pass through the body of `while (1)` ends: `continue` (or the end
of the body) or `break`. -/
inductive Passo where
  | continua (s : Estado) : Passo
  | encerra (s : Estado) : Passo
deriving DecidableEq, Repr

/-- Lines 105-110: the menu of a room that has a way out. -/
def menu (c : Comodo) : List Msg :=
  [Msg.estaNaSala c.nome, Msg.escolhaCaminho]
    ++ (match c.esq with
        | .no nome _ _ => [Msg.opcaoEsquerda nome]
        | .nulo => [])
    ++ (match c.dir with
        | .no nome _ _ => [Msg.opcaoDireita nome]
        | .nulo => [])
    ++ [Msg.opcaoSair, Msg.digite]

/-- Lines 151-160: record the room just entered and announce it. -/
def Estado.entrar (s : Estado) (c : Comodo) : Estado :=
  let s1 := { s with atual := c }
  s1.registrar.printf (Msg.entrou c.nome)

/-- Lines 133-138 and 140-145, followed by 151-160: take the way to `destino`
if there is one, otherwise say so and `continue`. -/
def Estado.irPara (s : Estado) (destino : Sala) (semCaminho : Msg) : Passo :=
  match destino with
  | .no nome esq dir => .continua (s.entrar ⟨nome, esq, dir⟩)
  | .nulo => .continua (s.printf semCaminho)

/-- Lines 124-160: what the body does with the choice `o` (the value of
`opc`), once the line has been read.  The codes are `'s'` = 115, `'e'` = 101,
`'d'` = 100. -/
def decidir (s : Estado) (o : Nat) : Passo :=
  if o = 0 then
    .continua (s.printf Msg.entradaInvalida)
  else if o = 115 then
    .encerra (s.printf Msg.optouSair)
  else if o = 101 then
    s.irPara s.atual.esq Msg.semEsquerda
  else if o = 100 then
    s.irPara s.atual.dir Msg.semDireita
  else
    .continua (s.printf Msg.opcaoInvalida)

/-- Lines 98-160: one pass through the body of `while (1)`. -/
def iteracao (s : Estado) : Passo :=
  if s.atual.esq.existe = false ∧ s.atual.dir.existe = false then
    .encerra (s.printf (Msg.semSaidas s.atual.nome))
  else
    let s1 := { s with stdout := s.stdout ++ menu s.atual }
    match fgets 32 s1.stdin with
    | none => .encerra (s1.printf Msg.entradaEncerrada)
    | some (entrada, resto) => decidir { s1 with stdin := resto } (opc entrada)

/-- The loop `while (1)`, run for at most `n` passes: the state at the `break`,
or `none` when `n` passes were not enough. -/
def laco : Nat → Estado → Option Estado
  | 0, _ => none
  | n + 1, s =>
    match iteracao s with
    | .encerra s1 => some s1
    | .continua s1 => laco n s1

/-- Lines 165-168: the path, one `printf` per name and per arrow. -/
def caminho : List String → List Msg
  | [] => []
  | [nome] => [Msg.visitada nome]
  | nome :: outro :: resto => Msg.visitada nome :: Msg.seta :: caminho (outro :: resto)

/-- Lines 164-169: the path between its two banners. -/
def Estado.exibirCaminho (s : Estado) : Estado :=
  { s with stdout := s.stdout ++ [Msg.cabecalho] ++ caminho s.visitadas ++ [Msg.rodape] }

/-- Lines 79-94: the state on entry to the loop, for a root that is not
`NULL`. -/
def estadoInicial (inicio : Comodo) (stdin : List Nat) (stdout : List Msg) : Estado :=
  let s : Estado :=
    { atual := inicio, visitadas := [], capacidade := 8, stdin := stdin, stdout := stdout }
  s.registrar.printf (Msg.hallDeEntrada inicio.nome)

/-- What `explorarSalas` leaves behind: the console only when the map is
empty, otherwise the final state of its variables too. -/
inductive Resultado where
  | vazio (stdin : List Nat) (stdout : List Msg) : Resultado
  | explorado (s : Estado) : Resultado
deriving DecidableEq, Repr

/-- Function `explorarSalas`, run on the console `stdin`, `stdout`. -/
def explorarSalas (inicio : Sala) (stdin : List Nat) (stdout : List Msg) : Option Resultado :=
  match inicio with
  | .nulo => some (.vazio stdin (stdout ++ [Msg.mapaVazio]))
  | .no nome esq dir =>
    (laco (stdin.length + 1) (estadoInicial ⟨nome, esq, dir⟩ stdin stdout)).map
      fun s => .explorado s.exibirCaminho

/-- The visit log `explorarSalas` ends with, if it made one. -/
def Resultado.visitadas : Resultado → Option (List String)
  | .vazio _ _ => none
  | .explorado s => some s.visitadas

/-- The input `explorarSalas` left unread. -/
def Resultado.stdin : Resultado → List Nat
  | .vazio stdin _ => stdin
  | .explorado s => s.stdin

/-- The output after `explorarSalas`. -/
def Resultado.stdout : Resultado → List Msg
  | .vazio _ stdout => stdout
  | .explorado s => s.stdout

/-! ## `main` -/

/-- The map assembled by lines 191-223 of `main`. -/
def mapaDemo : Sala :=
  let cozinha := (criarSala "Cozinha Antiga").ligar .nulo .nulo
  let sotao := (criarSala "Sótão empoeirado").ligar .nulo .nulo
  let porao := (criarSala "Porão Misterioso").ligar .nulo .nulo
  let jardim := (criarSala "Jardim Interno").ligar .nulo .nulo
  let escritorio := (criarSala "Escritório").ligar porao sotao
  let biblioteca := (criarSala "Biblioteca").ligar escritorio jardim
  let salaEstar := (criarSala "Sala de Estar").ligar cozinha .nulo
  (criarSala "Hall de Entrada").ligar salaEstar biblioteca

/-- What a run of the program leaves behind. -/
structure Execucao where
  codigo : Nat
  stdin : List Nat
  stdout : List Msg
  liberadas : List Liberacao
deriving DecidableEq, Repr

/-- Function `main`, run on the input `stdin`. -/
def main (stdin : List Nat) : Option Execucao :=
  let hall := mapaDemo
  (explorarSalas hall stdin [Msg.boasVindas, Msg.instrucoes]).map fun r =>
    { codigo := 0
      stdin := r.stdin
      stdout := r.stdout ++ [Msg.despedida]
      liberadas := liberarSalas hall [] }

/-- The bytes of an ASCII text. -/
def bytes (texto : String) : List Nat := texto.toList.map Char.toNat

/-- The state at the head of the loop after `k` passes that did not leave it
(`none` when the loop ended earlier). -/
def aposPasses : Nat → Estado → Option Estado
  | 0, s => some s
  | k + 1, s =>
    match iteracao s with
    | .encerra _ => none
    | .continua s1 => aposPasses k s1

/-- Number of passes of the loop, among the first `n`, that move the cursor. -/
def movimentos : Nat → Estado → Nat
  | 0, _ => 0
  | n + 1, s =>
    match iteracao s with
    | .encerra _ => 0
    | .continua s1 => (if s1.atual = s.atual then 0 else 1) + movimentos n s1

/-! ## Invariants of the loop -/

/-- The three ways a pass can end: it leaves the loop with cursor and log as
they were; it continues with cursor and log as they were, having read from the
input; or it continues at a child of the cursor, whose name is appended to the
log, having read from the input. -/
inductive Efeito (s : Estado) : Passo → Prop where
  | fim (s1 : Estado) (ha : s1.atual = s.atual) (hv : s1.visitadas = s.visitadas)
      (hi : s1.stdin.length ≤ s.stdin.length) : Efeito s (Passo.encerra s1)
  | repete (s1 : Estado) (ha : s1.atual = s.atual) (hv : s1.visitadas = s.visitadas)
      (hi : s1.stdin.length < s.stdin.length) : Efeito s (Passo.continua s1)
  | move (s1 : Estado) (nome : String) (esq dir : Sala)
      (hf : s.atual.esq = Sala.no nome esq dir ∨ s.atual.dir = Sala.no nome esq dir)
      (ha : s1.atual = ⟨nome, esq, dir⟩) (hv : s1.visitadas = s.visitadas ++ [nome])
      (hi : s1.stdin.length < s.stdin.length) : Efeito s (Passo.continua s1)

/-- The last entry of the log is the name of the room under the cursor. -/
def Estado.noCursor (s : Estado) : Prop :=
  s.visitadas.getLast? = some s.atual.nome

/-- The state a pass ends in, whether it leaves the loop or not. -/
def Passo.estado : Passo → Estado
  | .continua s => s
  | .encerra s => s

/-- The `printf` calls of lines 164-169, which print the path and its banners. -/
def Msg.doCaminho : Msg → Bool
  | .cabecalho => true
  | .visitada _ => true
  | .seta => true
  | .rodape => true
  | _ => false

/-- The names of the rooms met when following an address from `raiz`, the
name of `raiz` first. -/
def Sala.nomesAte : Sala → Endereco → List String
  | .nulo, _ => []
  | .no nome _ _, [] => [nome]
  | .no nome esq _, Lado.esq :: e => nome :: esq.nomesAte e
  | .no nome _ dir, Lado.dir :: e => nome :: dir.nomesAte e

/-- Number of levels of a tree: 0 for `NULL`, 1 for a room without children. -/
def Sala.niveis : Sala → Nat
  | .nulo => 0
  | .no _ esq dir => max esq.niveis dir.niveis + 1

/-- Height of a tree: the number of links on its longest downward path. -/
def Sala.altura (s : Sala) : Nat := s.niveis - 1

/-- The log is the list of names along a downward path of the map `raiz` that
starts at its root and ends at the cursor. -/
def Estado.noCaminho (raiz : Sala) (s : Estado) : Prop :=
  ∃ e : Endereco, raiz.seguir e = s.atual.sala ∧ s.visitadas = raiz.nomesAte e

/-- Number of passes the loop makes, among the first `n`. -/
def passes : Nat → Estado → Nat
  | 0, _ => 0
  | n + 1, s =>
    match iteracao s with
    | .encerra _ => 1
    | .continua s1 => passes n s1 + 1

/-- Number of calls `fgets(entrada, 32, stdin)` that return a line, among the
first `n` calls made one after the other on the input. -/
def leituras : Nat → List Nat → Nat
  | 0, _ => 0
  | n + 1, stdin =>
    match fgets 32 stdin with
    | none => 0
    | some (_, resto) => leituras n resto + 1

/-! ## The array `visitadas` as a block of memory -/

/-- The block `visitadas` points to, with the variables that describe it: one
slot per element of the block (`none` is a slot never written), `capacidade`
and `cont`. -/
structure Vetor where
  visitadas : List (Option String)
  capacidade : Nat
  cont : Nat
deriving DecidableEq, Repr

/-- Lines 79-81: `malloc(capacidade * sizeof(char *))` with `capacidade = 8`
and `cont = 0`. -/
def Vetor.inicial : Vetor :=
  { visitadas := List.replicate 8 none, capacidade := 8, cont := 0 }

/-- Function `realloc` to `n` slots: the old slots that fit keep their
contents, the new ones are not written yet. -/
def realloc (bloco : List (Option String)) (n : Nat) : List (Option String) :=
  bloco.take n ++ List.replicate (n - bloco.length) none

/-- Lines 87-92 and 152-157 on the block: double it when `cont + 1 >
capacidade`, then write `visitadas[cont++] = nome`.  The result is `none` when
the write falls outside the block. -/
def Vetor.registrar (v : Vetor) (nome : String) : Option Vetor :=
  let v1 : Vetor :=
    if v.cont + 1 > v.capacidade then
      { v with capacidade := v.capacidade * 2, visitadas := realloc v.visitadas (v.capacidade * 2) }
    else v
  if v1.cont < v1.visitadas.length then
    some { v1 with visitadas := v1.visitadas.set v1.cont (some nome), cont := v1.cont + 1 }
  else none

/-- The block after the writes of the given names, one after the other, on a
fresh block. -/
def Vetor.aposEscritas (nomes : List String) : Option Vetor :=
  nomes.foldl (fun v nome => v.bind fun v1 => v1.registrar nome) (some Vetor.inicial)

/-- The variables of the array are consistent: `cont` is within `capacidade`,
`capacidade` is 8 times a power of two, and the writes of the log entries on a
fresh block all fall inside the block and leave a block of `capacidade` slots
whose first `cont` slots hold the log. -/
def Estado.vetorOk (s : Estado) : Prop :=
  s.cont ≤ s.capacidade ∧ (∃ j, s.capacidade = 8 * 2 ^ j) ∧
    ∃ v, Vetor.aposEscritas s.visitadas = some v ∧ v.capacidade = s.capacidade ∧
      v.cont = s.cont ∧ v.visitadas.length = v.capacidade ∧
      v.visitadas.take v.cont = s.visitadas.map some

/-! ## Reading a line and parsing the choice -/

theorem isspace_ne_zero {c : Nat} (h : isspace c = true) : c ≠ 0 := by
  intro h0
  subst h0
  simp [isspace] at h

theorem opc_cons_branco (b : Nat) (l : List Nat) (hb : isspace b = true) :
    opc (b :: l) = opc l := by
  have h0 : b ≠ 0 := isspace_ne_zero hb
  simp [opc, strlen, h0, primeiraUtil, hb]

theorem opc_brancos_append (brancos l : List Nat) (hb : ∀ b ∈ brancos, isspace b = true) :
    opc (brancos ++ l) = opc l := by
  induction brancos with
  | nil => rfl
  | cons b bs ih =>
    have h1 : isspace b = true := hb b (List.mem_cons_self b bs)
    have h2 : ∀ x ∈ bs, isspace x = true := fun x hx => hb x (List.mem_cons_of_mem b hx)
    rw [List.cons_append, opc_cons_branco b (bs ++ l) h1]
    exact ih h2

theorem opc_cons_util (c : Nat) (cauda : List Nat) (hc : isspace c = false) :
    opc (c :: cauda) = tolower c := by
  by_cases h0 : c = 0
  · subst h0
    simp [opc, strlen, primeiraUtil, tolower]
  · simp [opc, strlen, h0, primeiraUtil, hc]

theorem opc_nil : opc [] = 0 := rfl

theorem opc_primeira (brancos cauda : List Nat) (c : Nat)
    (hb : ∀ b ∈ brancos, isspace b = true) (hc : isspace c = false) :
    opc (brancos ++ c :: cauda) = tolower c := by
  rw [opc_brancos_append brancos (c :: cauda) hb]
  exact opc_cons_util c cauda hc

theorem opc_so_brancos (brancos : List Nat) (hb : ∀ b ∈ brancos, isspace b = true) :
    opc brancos = 0 := by
  have h := opc_brancos_append brancos [] hb
  rw [List.append_nil] at h
  rw [h, opc_nil]

theorem tolower_eq_e (c : Nat) : tolower c = 101 ↔ c = 101 ∨ c = 69 := by
  unfold tolower
  split <;> omega

theorem tolower_eq_d (c : Nat) : tolower c = 100 ↔ c = 100 ∨ c = 68 := by
  unfold tolower
  split <;> omega

theorem tolower_eq_s (c : Nat) : tolower c = 115 ↔ c = 115 ∨ c = 83 := by
  unfold tolower
  split <;> omega

theorem tolower_eq_zero (c : Nat) : tolower c = 0 ↔ c = 0 := by
  unfold tolower
  split <;> omega

/-- A line of at most 30 bytes followed by its newline fits the buffer:
`fgets` stores all of it and leaves what follows the newline. -/
theorem lerLinha_linha (linha resto : List Nat) (k : Nat) (hk : linha.length < k)
    (hn : ∀ b ∈ linha, b ≠ 10) :
    lerLinha k (linha ++ 10 :: resto) = (linha ++ [10], resto) := by
  induction linha generalizing k with
  | nil =>
    cases k with
    | zero => simp at hk
    | succ k => simp [lerLinha]
  | cons b bs ih =>
    cases k with
    | zero => simp at hk
    | succ k =>
      have hb : b ≠ 10 := hn b (List.mem_cons_self b bs)
      have hk1 : bs.length < k := by simpa using hk
      have h := ih k hk1 (fun x hx => hn x (List.mem_cons_of_mem b hx))
      simp [lerLinha, hb, h]

theorem fgets_linha (linha resto : List Nat) (hk : linha.length ≤ 30)
    (hn : ∀ b ∈ linha, b ≠ 10) :
    fgets 32 (linha ++ 10 :: resto) = some (linha ++ [10], resto) := by
  have h := lerLinha_linha linha resto 31 (by omega) hn
  cases linha with
  | nil => simpa [fgets] using h
  | cons b bs => simpa [fgets] using h

/-! ## One pass through the loop body -/

theorem iteracao_folha (s : Estado) (he : s.atual.esq = Sala.nulo) (hd : s.atual.dir = Sala.nulo) :
    iteracao s = Passo.encerra (s.printf (Msg.semSaidas s.atual.nome)) := by
  simp [iteracao, he, hd, Sala.existe]

theorem iteracao_fim (s : Estado) (hs : s.atual.esq.existe = true ∨ s.atual.dir.existe = true)
    (hf : s.stdin = []) :
    iteracao s = Passo.encerra
      (Estado.printf { s with stdout := s.stdout ++ menu s.atual } Msg.entradaEncerrada) := by
  have h : ¬ (s.atual.esq.existe = false ∧ s.atual.dir.existe = false) := by
    rcases hs with h | h <;> simp [h]
  simp [iteracao, h, hf, fgets]

theorem iteracao_lida (s : Estado) (entrada resto : List Nat)
    (hs : s.atual.esq.existe = true ∨ s.atual.dir.existe = true)
    (hl : fgets 32 s.stdin = some (entrada, resto)) :
    iteracao s =
      decidir { s with stdout := s.stdout ++ menu s.atual, stdin := resto } (opc entrada) := by
  have h : ¬ (s.atual.esq.existe = false ∧ s.atual.dir.existe = false) := by
    rcases hs with h | h <;> simp [h]
  simp [iteracao, h, hl]

theorem decidir_vazia (s : Estado) :
    decidir s 0 = Passo.continua (s.printf Msg.entradaInvalida) := by
  simp [decidir]

theorem decidir_sair (s : Estado) :
    decidir s 115 = Passo.encerra (s.printf Msg.optouSair) := by
  simp [decidir]

theorem decidir_esquerda (s : Estado) :
    decidir s 101 = s.irPara s.atual.esq Msg.semEsquerda := by
  simp [decidir]

theorem decidir_direita (s : Estado) :
    decidir s 100 = s.irPara s.atual.dir Msg.semDireita := by
  simp [decidir]

theorem decidir_outra (s : Estado) (o : Nat) (h0 : o ≠ 0) (hs : o ≠ 115) (he : o ≠ 101)
    (hd : o ≠ 100) : decidir s o = Passo.continua (s.printf Msg.opcaoInvalida) := by
  simp [decidir, h0, hs, he, hd]

theorem irPara_filho (s : Estado) (m : Msg) (nome : String) (esq dir : Sala) :
    s.irPara (Sala.no nome esq dir) m = Passo.continua (s.entrar ⟨nome, esq, dir⟩) := rfl

theorem irPara_nulo (s : Estado) (m : Msg) :
    s.irPara Sala.nulo m = Passo.continua (s.printf m) := rfl

theorem lerLinha_resto_le (k : Nat) (l : List Nat) : (lerLinha k l).2.length ≤ l.length := by
  induction k generalizing l with
  | zero => simp [lerLinha]
  | succ k ih =>
    cases l with
    | nil => simp [lerLinha]
    | cons c resto =>
      by_cases hc : c = 10
      · simp [lerLinha, hc]
      · have := ih resto
        simp [lerLinha, hc]
        omega

theorem fgets_consome (stdin entrada resto : List Nat)
    (hl : fgets 32 stdin = some (entrada, resto)) : resto.length < stdin.length := by
  cases stdin with
  | nil => simp [fgets] at hl
  | cons c l =>
    simp only [fgets, Option.some.injEq] at hl
    have h2 : resto = (lerLinha 31 (c :: l)).2 := by rw [hl]
    rw [h2]
    by_cases hc : c = 10
    · simp [lerLinha, hc]
    · have := lerLinha_resto_le 30 l
      simp [lerLinha, hc]
      omega

theorem decidir_efeito (s0 s : Estado) (o : Nat) (ha : s.atual = s0.atual)
    (hv : s.visitadas = s0.visitadas) (hi : s.stdin.length < s0.stdin.length) :
    Efeito s0 (decidir s o) := by
  unfold decidir
  split
  · exact Efeito.repete _ ha hv hi
  split
  · exact Efeito.fim _ ha hv (Nat.le_of_lt hi)
  split
  · cases hc : s.atual.esq with
    | nulo => exact Efeito.repete _ ha hv hi
    | no nome esq dir =>
      refine Efeito.move _ nome esq dir (Or.inl (by rw [← ha, hc])) rfl ?_ hi
      show s.visitadas ++ [nome] = s0.visitadas ++ [nome]
      rw [hv]
  split
  · cases hc : s.atual.dir with
    | nulo => exact Efeito.repete _ ha hv hi
    | no nome esq dir =>
      refine Efeito.move _ nome esq dir (Or.inr (by rw [← ha, hc])) rfl ?_ hi
      show s.visitadas ++ [nome] = s0.visitadas ++ [nome]
      rw [hv]
  · exact Efeito.repete _ ha hv hi

theorem iteracao_efeito (s : Estado) : Efeito s (iteracao s) := by
  by_cases hf : s.atual.esq.existe = false ∧ s.atual.dir.existe = false
  · simp only [iteracao, hf, and_self, if_true]
    exact Efeito.fim _ rfl rfl (Nat.le_refl _)
  · cases hl : fgets 32 s.stdin with
    | none =>
      simp only [iteracao, hf, if_false, hl]
      exact Efeito.fim _ rfl rfl (Nat.le_refl _)
    | some par =>
      obtain ⟨entrada, resto⟩ := par
      simp only [iteracao, hf, if_false, hl]
      exact decidir_efeito s _ (opc entrada) rfl rfl (fgets_consome _ _ _ hl)

theorem iteracao_continua_consome (s s1 : Estado) (h : iteracao s = Passo.continua s1) :
    s1.stdin.length < s.stdin.length := by
  have he := iteracao_efeito s
  rw [h] at he
  cases he with
  | repete _ _ _ hi => exact hi
  | move _ _ _ _ _ _ _ hi => exact hi

/-! ## The loop ends -/

/-- The loop ends within `stdin.length + 1` passes: every pass that does not
leave the loop consumes input. -/
theorem laco_termina (n : Nat) (s : Estado) (h : s.stdin.length < n) :
    ∃ s1, laco n s = some s1 := by
  induction n generalizing s with
  | zero => exact absurd h (Nat.not_lt_zero _)
  | succ n ih =>
    cases hp : iteracao s with
    | encerra s1 => exact ⟨s1, by simp [laco, hp]⟩
    | continua s1 =>
      have hc := iteracao_continua_consome s s1 hp
      obtain ⟨s2, h2⟩ := ih s1 (by omega)
      exact ⟨s2, by simp [laco, hp, h2]⟩

/-- More fuel does not change the result of the loop. -/
theorem laco_mais (n m : Nat) (s s1 : Estado) (h : laco n s = some s1) (hm : n ≤ m) :
    laco m s = some s1 := by
  induction n generalizing s m with
  | zero => simp [laco] at h
  | succ n ih =>
    cases m with
    | zero => omega
    | succ m =>
      cases hp : iteracao s with
      | encerra s2 => simpa [laco, hp] using h
      | continua s2 =>
        simp only [laco, hp] at h ⊢
        exact ih m s2 h (by omega)

/-- Function `explorarSalas` returns, for every map and every input. -/
theorem explorarSalas_retorna (inicio : Sala) (stdin : List Nat) (stdout : List Msg) :
    ∃ r, explorarSalas inicio stdin stdout = some r := by
  cases inicio with
  | nulo => exact ⟨_, rfl⟩
  | no nome esq dir =>
    obtain ⟨s1, h1⟩ := laco_termina (stdin.length + 1)
      (estadoInicial ⟨nome, esq, dir⟩ stdin stdout) (Nat.lt_succ_self _)
    exact ⟨Resultado.explorado s1.exibirCaminho, by simp [explorarSalas, h1]⟩

theorem sala_ne_filho_esq (nome : String) (esq dir : Sala) : esq ≠ Sala.no nome esq dir := by
  intro h
  have := congrArg Sala.tamanho h
  simp [Sala.tamanho] at this
  omega

theorem sala_ne_filho_dir (nome : String) (esq dir : Sala) : dir ≠ Sala.no nome esq dir := by
  intro h
  have := congrArg Sala.tamanho h
  simp [Sala.tamanho] at this
  omega

/-- A child of a room is not that room. -/
theorem filho_ne (c : Comodo) (nome : String) (esq dir : Sala)
    (hf : c.esq = Sala.no nome esq dir ∨ c.dir = Sala.no nome esq dir) :
    (⟨nome, esq, dir⟩ : Comodo) ≠ c := by
  intro h
  subst h
  rcases hf with h | h
  · exact sala_ne_filho_esq nome esq dir h
  · exact sala_ne_filho_dir nome esq dir h

/-- Along the loop the log grows by one entry at each pass that moves the
cursor, and by none at the others. -/
theorem laco_conta (n : Nat) (s s1 : Estado) (h : laco n s = some s1) :
    s1.visitadas.length = s.visitadas.length + movimentos n s := by
  induction n generalizing s with
  | zero => simp [laco] at h
  | succ n ih =>
    have he := iteracao_efeito s
    cases hp : iteracao s with
    | encerra s2 =>
      rw [hp] at he
      simp only [laco, hp, Option.some.injEq] at h
      subst h
      cases he with
      | fim _ _ hv _ => simp [movimentos, hp, hv]
    | continua s2 =>
      rw [hp] at he
      simp only [laco, hp] at h
      have h2 := ih s2 h
      cases he with
      | repete _ ha hv _ => simp [movimentos, hp, ha, h2, hv]
      | move _ nome esq dir hf ha hv _ =>
        have hne : s2.atual ≠ s.atual := by
          rw [ha]
          exact filho_ne s.atual nome esq dir hf
        simp [movimentos, hp, hne, h2, hv]
        omega

theorem estadoInicial_noCursor (inicio : Comodo) (stdin : List Nat) (stdout : List Msg) :
    (estadoInicial inicio stdin stdout).noCursor := by
  simp [Estado.noCursor, estadoInicial, Estado.registrar, Estado.printf]

theorem aposPasses_noCursor (k : Nat) (s0 s : Estado) (h0 : s0.noCursor)
    (h : aposPasses k s0 = some s) : s.noCursor := by
  induction k generalizing s0 with
  | zero =>
    simp only [aposPasses, Option.some.injEq] at h
    subst h
    exact h0
  | succ k ih =>
    have he := iteracao_efeito s0
    cases hp : iteracao s0 with
    | encerra s2 => simp [aposPasses, hp] at h
    | continua s2 =>
      rw [hp] at he
      simp only [aposPasses, hp] at h
      refine ih s2 ?_ h
      cases he with
      | repete _ ha hv _ =>
        unfold Estado.noCursor at h0 ⊢
        rw [ha, hv]
        exact h0
      | move _ nome esq dir hf ha hv _ =>
        unfold Estado.noCursor
        rw [ha, hv]
        simp

/-! ## Properties of one pass -/

/-- C1: at a room that has a way out, when the line read by `fgets` gives the
choice `'e'` (code 101) and the room has a left child, or gives `'d'` (code
100) and the room has a right child, the pass moves the cursor to exactly that
child, appends exactly that child's name after the unchanged earlier entries of
the visit log, consumes the bytes read, and the loop continues. -/
theorem mover_para_filho (s : Estado) (entrada resto : List Nat) (nome : String)
    (esq dir : Sala) (hl : fgets 32 s.stdin = some (entrada, resto))
    (h : (opc entrada = 101 ∧ s.atual.esq = Sala.no nome esq dir) ∨
      (opc entrada = 100 ∧ s.atual.dir = Sala.no nome esq dir)) :
    ∃ s1, iteracao s = Passo.continua s1 ∧ s1.atual = ⟨nome, esq, dir⟩ ∧
      s1.visitadas = s.visitadas ++ [nome] ∧ s1.stdin = resto := by
  have hs : s.atual.esq.existe = true ∨ s.atual.dir.existe = true := by
    rcases h with ⟨_, h⟩ | ⟨_, h⟩
    · exact Or.inl (by rw [h]; rfl)
    · exact Or.inr (by rw [h]; rfl)
  rw [iteracao_lida s entrada resto hs hl]
  rcases h with ⟨ho, hc⟩ | ⟨ho, hc⟩
  · rw [ho, decidir_esquerda]
    simp only [hc, irPara_filho]
    exact ⟨_, rfl, rfl, rfl, rfl⟩
  · rw [ho, decidir_direita]
    simp only [hc, irPara_filho]
    exact ⟨_, rfl, rfl, rfl, rfl⟩

/-- The start of the demo run with the line `e`: the cursor goes from the hall
to "Sala de Estar" and the log becomes hall, "Sala de Estar". -/
theorem mover_para_filho_witness :
    ∃ s1, iteracao (estadoInicial
        ⟨"Hall de Entrada", mapaDemo.seguir [Lado.esq], mapaDemo.seguir [Lado.dir]⟩
        (bytes "e\n") []) = Passo.continua s1 ∧
      s1.atual = ⟨"Sala de Estar", Sala.no "Cozinha Antiga" Sala.nulo Sala.nulo, Sala.nulo⟩ ∧
      s1.visitadas = ["Hall de Entrada"] ++ ["Sala de Estar"] ∧ s1.stdin = [] :=
  mover_para_filho
    (estadoInicial ⟨"Hall de Entrada", mapaDemo.seguir [Lado.esq], mapaDemo.seguir [Lado.dir]⟩
      (bytes "e\n") [])
    [101, 10] [] "Sala de Estar" (Sala.no "Cozinha Antiga" Sala.nulo Sala.nulo) Sala.nulo
    (by decide) (Or.inl ⟨by decide, by decide⟩)

/-- C2: at a room that has a way out, the choice `'e'` when there is no left
child, or `'d'` when there is no right child, leaves the cursor and the visit
log unchanged, and the loop continues (the next pass prompts again at the same
room). -/
theorem direcao_sem_filho (s : Estado) (entrada resto : List Nat)
    (hs : s.atual.esq.existe = true ∨ s.atual.dir.existe = true)
    (hl : fgets 32 s.stdin = some (entrada, resto))
    (h : (opc entrada = 101 ∧ s.atual.esq = Sala.nulo) ∨
      (opc entrada = 100 ∧ s.atual.dir = Sala.nulo)) :
    ∃ s1, iteracao s = Passo.continua s1 ∧ s1.atual = s.atual ∧
      s1.visitadas = s.visitadas ∧ s1.stdin = resto := by
  rw [iteracao_lida s entrada resto hs hl]
  rcases h with ⟨ho, hc⟩ | ⟨ho, hc⟩
  · rw [ho, decidir_esquerda]
    simp only [hc, irPara_nulo]
    exact ⟨_, rfl, rfl, rfl, rfl⟩
  · rw [ho, decidir_direita]
    simp only [hc, irPara_nulo]
    exact ⟨_, rfl, rfl, rfl, rfl⟩

/-- The choice `d` at "Sala de Estar" of the demo map, which has only a left
child: cursor and log stay as they are. -/
theorem direcao_sem_filho_witness :
    mapaDemo.seguir [Lado.esq] =
        Sala.no "Sala de Estar" (Sala.no "Cozinha Antiga" Sala.nulo Sala.nulo) Sala.nulo ∧
      ∃ s1, iteracao
          { atual := ⟨"Sala de Estar", Sala.no "Cozinha Antiga" Sala.nulo Sala.nulo, Sala.nulo⟩
            visitadas := ["Hall de Entrada", "Sala de Estar"]
            capacidade := 8
            stdin := bytes "d\n"
            stdout := [] } = Passo.continua s1 ∧
        s1.atual = ⟨"Sala de Estar", Sala.no "Cozinha Antiga" Sala.nulo Sala.nulo, Sala.nulo⟩ ∧
        s1.visitadas = ["Hall de Entrada", "Sala de Estar"] ∧ s1.stdin = [] :=
  ⟨by decide,
    direcao_sem_filho
      { atual := ⟨"Sala de Estar", Sala.no "Cozinha Antiga" Sala.nulo Sala.nulo, Sala.nulo⟩
        visitadas := ["Hall de Entrada", "Sala de Estar"]
        capacidade := 8
        stdin := bytes "d\n"
        stdout := [] }
      [100, 10] [] (Or.inl (by decide)) (by decide) (Or.inr ⟨by decide, by decide⟩)⟩

/-- C3: at a room that has a way out, when the line read by `fgets` has only
white space, or its first byte that is not white space is none of `e`, `E`,
`d`, `D`, `s`, `S`, the pass leaves the cursor and the visit log unchanged and
the loop continues to the next prompt. -/
theorem entrada_rejeitada (s : Estado) (entrada resto : List Nat)
    (hs : s.atual.esq.existe = true ∨ s.atual.dir.existe = true)
    (hl : fgets 32 s.stdin = some (entrada, resto))
    (h : (∀ b ∈ entrada, isspace b = true) ∨
      ∃ brancos c cauda, entrada = brancos ++ c :: cauda ∧
        (∀ b ∈ brancos, isspace b = true) ∧ isspace c = false ∧
        c ≠ 101 ∧ c ≠ 69 ∧ c ≠ 100 ∧ c ≠ 68 ∧ c ≠ 115 ∧ c ≠ 83) :
    ∃ s1, iteracao s = Passo.continua s1 ∧ s1.atual = s.atual ∧
      s1.visitadas = s.visitadas ∧ s1.stdin = resto := by
  rw [iteracao_lida s entrada resto hs hl]
  rcases h with hb | ⟨brancos, c, cauda, rfl, hb, hc, h1, h2, h3, h4, h5, h6⟩
  · rw [opc_so_brancos entrada hb, decidir_vazia]
    exact ⟨_, rfl, rfl, rfl, rfl⟩
  · rw [opc_primeira brancos cauda c hb hc]
    have he : tolower c ≠ 101 := fun x => by
      rcases (tolower_eq_e c).1 x with y | y <;> contradiction
    have hd : tolower c ≠ 100 := fun x => by
      rcases (tolower_eq_d c).1 x with y | y <;> contradiction
    have hq : tolower c ≠ 115 := fun x => by
      rcases (tolower_eq_s c).1 x with y | y <;> contradiction
    by_cases h0 : tolower c = 0
    · rw [h0, decidir_vazia]
      exact ⟨_, rfl, rfl, rfl, rfl⟩
    · rw [decidir_outra _ _ h0 hq he hd]
      exact ⟨_, rfl, rfl, rfl, rfl⟩

/-- The line `  x` at the hall of the demo map is rejected. -/
theorem entrada_rejeitada_witness :
    ∃ s1, iteracao (estadoInicial
        ⟨"Hall de Entrada", mapaDemo.seguir [Lado.esq], mapaDemo.seguir [Lado.dir]⟩
        (bytes "  x\nd\n") []) = Passo.continua s1 ∧
      s1.atual = ⟨"Hall de Entrada", mapaDemo.seguir [Lado.esq], mapaDemo.seguir [Lado.dir]⟩ ∧
      s1.visitadas = ["Hall de Entrada"] ∧ s1.stdin = [100, 10] :=
  entrada_rejeitada
    (estadoInicial ⟨"Hall de Entrada", mapaDemo.seguir [Lado.esq], mapaDemo.seguir [Lado.dir]⟩
      (bytes "  x\nd\n") [])
    [32, 32, 120, 10] [100, 10] (Or.inl (by decide)) (by decide)
    (Or.inr ⟨[32, 32], 120, [10], by decide, by decide, by decide, by decide, by decide,
      by decide, by decide, by decide, by decide⟩)

/-- C5: the choice parsed from the line in the buffer is its first byte that is
not white space, lower-cased, whatever follows that byte; a line of white space
only gives the empty choice `0`; and the body then acts on the choice alone:
`s`/`S` leaves the loop, `e`/`E` takes the left way, `d`/`D` the right way,
any other byte is rejected. -/
theorem escolha_da_linha (brancos cauda : List Nat) (c : Nat) (s : Estado)
    (hb : ∀ b ∈ brancos, isspace b = true) (hc : isspace c = false) :
    opc (brancos ++ c :: cauda) = tolower c ∧
      opc (brancos ++ c :: cauda) = opc (brancos ++ [c]) ∧
      opc brancos = 0 ∧
      decidir s (opc (brancos ++ c :: cauda)) =
        (if c = 115 ∨ c = 83 then Passo.encerra (s.printf Msg.optouSair)
        else if c = 101 ∨ c = 69 then s.irPara s.atual.esq Msg.semEsquerda
        else if c = 100 ∨ c = 68 then s.irPara s.atual.dir Msg.semDireita
        else if c = 0 then Passo.continua (s.printf Msg.entradaInvalida)
        else Passo.continua (s.printf Msg.opcaoInvalida)) := by
  have h1 := opc_primeira brancos cauda c hb hc
  refine ⟨h1, ?_, opc_so_brancos brancos hb, ?_⟩
  · rw [h1, opc_primeira brancos [] c hb hc]
  · rw [h1]
    unfold decidir
    simp only [tolower_eq_zero, tolower_eq_s, tolower_eq_e, tolower_eq_d]
    by_cases h0 : c = 0
    · subst h0; simp
    · by_cases hq : c = 115 ∨ c = 83
      · simp [h0, hq]
      · by_cases he : c = 101 ∨ c = 69
        · have : ¬ (c = 115 ∨ c = 83) := hq
          simp [h0, hq, he]
        · simp [h0, hq, he]

/-- The line `  Exyz` gives the choice `e`. -/
theorem escolha_da_linha_witness :
    opc (bytes "  Exyz\n") = 101 ∧ opc (bytes "  Exyz\n") = opc (bytes "  E") ∧
      opc (bytes "  ") = 0 :=
  have h := escolha_da_linha [32, 32] (bytes "xyz\n") 69
    (estadoInicial ⟨"Hall de Entrada", Sala.nulo, Sala.nulo⟩ [] [])
    (by decide) (by decide)
  ⟨h.1, h.2.1, h.2.2.1⟩

/-! ## Properties of whole runs -/

/-- C4: for every map with a root and every input, `explorarSalas` returns and
the length of its final visit log is 1 plus the number of passes of the loop
that moved the cursor.  A pass that leaves the loop (leaf, quit, end of input)
adds no entry; a pass that continues without moving the cursor (rejected input)
adds none; a pass that moves the cursor moves it to a child and adds one. -/
theorem comprimento_do_registro (nome : String) (esq dir : Sala) (stdin : List Nat)
    (stdout : List Msg) :
    (∃ s, explorarSalas (Sala.no nome esq dir) stdin stdout = some (Resultado.explorado s) ∧
      s.visitadas.length =
        1 + movimentos (stdin.length + 1) (estadoInicial ⟨nome, esq, dir⟩ stdin stdout)) ∧
    (∀ t t1, iteracao t = Passo.encerra t1 → t1.visitadas = t.visitadas) ∧
    (∀ t t1, iteracao t = Passo.continua t1 → t1.atual = t.atual →
      t1.visitadas = t.visitadas) ∧
    (∀ t t1, iteracao t = Passo.continua t1 → t1.atual ≠ t.atual →
      (t.atual.esq = t1.atual.sala ∨ t.atual.dir = t1.atual.sala) ∧
        t1.visitadas = t.visitadas ++ [t1.atual.nome]) := by
  refine ⟨?_, ?_, ?_, ?_⟩
  · obtain ⟨s1, h1⟩ := laco_termina (stdin.length + 1)
      (estadoInicial ⟨nome, esq, dir⟩ stdin stdout) (Nat.lt_succ_self _)
    refine ⟨s1.exibirCaminho, by simp [explorarSalas, h1], ?_⟩
    have h2 := laco_conta _ _ _ h1
    show s1.visitadas.length = _
    rw [h2]
    simp [estadoInicial, Estado.registrar, Estado.printf, Nat.add_comm]
  · intro t t1 h
    have he := iteracao_efeito t
    rw [h] at he
    cases he with
    | fim _ _ hv _ => exact hv
  · intro t t1 h hat
    have he := iteracao_efeito t
    rw [h] at he
    cases he with
    | repete _ _ hv _ => exact hv
    | move _ n e d hf ha _ _ =>
      exact absurd (ha ▸ hat) (filho_ne t.atual n e d hf)
  · intro t t1 h hat
    have he := iteracao_efeito t
    rw [h] at he
    cases he with
    | repete _ ha _ _ => exact absurd ha hat
    | move _ n e d hf ha hv _ =>
      rw [ha]
      exact ⟨hf, hv⟩

/-- On the demo map the input `d`, `x`, `d` makes two moves and a log of three
entries. -/
theorem comprimento_do_registro_witness :
    ∃ s, explorarSalas mapaDemo (bytes "d\nx\nd\n") [] = some (Resultado.explorado s) ∧
      s.visitadas.length = 1 + 2 :=
  (comprimento_do_registro "Hall de Entrada" (mapaDemo.seguir [Lado.esq])
    (mapaDemo.seguir [Lado.dir]) (bytes "d\nx\nd\n") []).1

/-- On the demo map the input `e`, `e` ends the loop at "Cozinha Antiga" and
leaves unread whatever follows. -/
theorem demo_esquerda_esquerda (resto : List Nat) (stdout : List Msg) :
    ∃ s, explorarSalas mapaDemo (bytes "e\ne\n" ++ resto) stdout =
        some (Resultado.explorado s) ∧
      s.visitadas = ["Hall de Entrada", "Sala de Estar", "Cozinha Antiga"] ∧
      s.stdin = resto := by
  have h3 : ∃ s, laco 3 (estadoInicial
      ⟨"Hall de Entrada", mapaDemo.seguir [Lado.esq], mapaDemo.seguir [Lado.dir]⟩
      (101 :: 10 :: 101 :: 10 :: resto) stdout) = some s ∧
      s.visitadas = ["Hall de Entrada", "Sala de Estar", "Cozinha Antiga"] ∧ s.stdin = resto := by
    simp [laco, iteracao, estadoInicial, mapaDemo, Sala.seguir, Sala.ligar, criarSala, strdup_port,
      Sala.existe, fgets, lerLinha, opc, strlen, primeiraUtil, isspace, tolower, decidir,
      Estado.irPara, Estado.entrar, Estado.registrar, Estado.printf]
  obtain ⟨s, hs, hv, hi⟩ := h3
  have h := laco_mais 3 ((bytes "e\ne\n" ++ resto).length + 1) _ _ hs (by simp [bytes])
  have hx : explorarSalas mapaDemo (bytes "e\ne\n" ++ resto) stdout =
      (laco ((bytes "e\ne\n" ++ resto).length + 1) (estadoInicial
        ⟨"Hall de Entrada", mapaDemo.seguir [Lado.esq], mapaDemo.seguir [Lado.dir]⟩
        (101 :: 10 :: 101 :: 10 :: resto) stdout)).map
        fun s => Resultado.explorado s.exibirCaminho := rfl
  exact ⟨s.exibirCaminho, by rw [hx, h]; rfl, hv, hi⟩

/-- C6 (the code departs from it): one line of 45 characters, typed at the hall
of the demo map, is read by two calls of `fgets`: the first stores its first 31
bytes, whose choice is `d`, the second stores the rest of the same line, whose
choice is `d` again.  The single line makes two moves. -/
theorem linha_longa_lida_em_partes :
    (bytes "d - quero ir para a biblioteca, depois jardim\n").count 10 = 1 ∧
      fgets 32 (bytes "d - quero ir para a biblioteca, depois jardim\n") =
        some (bytes "d - quero ir para a biblioteca,", bytes " depois jardim\n") ∧
      opc (bytes "d - quero ir para a biblioteca,") = 100 ∧
      opc (bytes " depois jardim\n") = 100 ∧
      (explorarSalas mapaDemo (bytes "d - quero ir para a biblioteca, depois jardim\n") []).bind
        Resultado.visitadas = some ["Hall de Entrada", "Biblioteca", "Jardim Interno"] ∧
      movimentos 47 (estadoInicial
        ⟨"Hall de Entrada", mapaDemo.seguir [Lado.esq], mapaDemo.seguir [Lado.dir]⟩
        (bytes "d - quero ir para a biblioteca, depois jardim\n") []) = 2 := by
  decide

/-- C7: on the demo map built by `main`, the input lines `d`, `d`, `s` give the
visit log "Hall de Entrada", "Biblioteca", "Jardim Interno", and `main` returns
the exit code 0. -/
theorem demo_direita_direita_sair :
    (explorarSalas mapaDemo (bytes "d\nd\ns\n") [Msg.boasVindas, Msg.instrucoes]).bind
        Resultado.visitadas = some ["Hall de Entrada", "Biblioteca", "Jardim Interno"] ∧
      (main (bytes "d\nd\ns\n")).map Execucao.codigo = some 0 := by
  decide

/-- C8: in every run of `explorarSalas`, whenever the loop head is reached
with the cursor at a room with neither child (the root included, after no pass
at all), that pass leaves the loop without reading input, with cursor and log
unchanged, and the last entry of the log is the name of that room.  On the demo
map the input `e`, `e` ends at "Cozinha Antiga" with the log hall, "Sala de
Estar", "Cozinha Antiga", and the input that follows is left unread. -/
theorem chegada_a_folha :
    (∀ (nome : String) (esq dir : Sala) (stdin : List Nat) (stdout : List Msg) (k : Nat)
        (s : Estado),
      aposPasses k (estadoInicial ⟨nome, esq, dir⟩ stdin stdout) = some s →
      s.atual.esq = Sala.nulo → s.atual.dir = Sala.nulo →
      ∃ s1, iteracao s = Passo.encerra s1 ∧ s1.stdin = s.stdin ∧ s1.atual = s.atual ∧
        s1.visitadas = s.visitadas ∧ s1.visitadas.getLast? = some s.atual.nome) ∧
    (∀ (resto : List Nat) (stdout : List Msg),
      ∃ s, explorarSalas mapaDemo (bytes "e\ne\n" ++ resto) stdout =
          some (Resultado.explorado s) ∧
        s.visitadas = ["Hall de Entrada", "Sala de Estar", "Cozinha Antiga"] ∧
        s.stdin = resto) := by
  refine ⟨?_, demo_esquerda_esquerda⟩
  intro nome esq dir stdin stdout k s hk he hd
  have hc := aposPasses_noCursor k _ s (estadoInicial_noCursor _ stdin stdout) hk
  exact ⟨_, iteracao_folha s he hd, rfl, rfl, rfl, hc⟩

/-- After the lines `e`, `e` on the demo map the loop head is reached at the
leaf "Cozinha Antiga"; the next pass ends the loop and the line `d` that
follows is not read. -/
theorem chegada_a_folha_witness :
    ∃ s1, iteracao ((aposPasses 2 (estadoInicial
          ⟨"Hall de Entrada", mapaDemo.seguir [Lado.esq], mapaDemo.seguir [Lado.dir]⟩
          (bytes "e\ne\nd\n") [])).get (by decide)) = Passo.encerra s1 ∧
      s1.stdin = bytes "d\n" ∧
      s1.atual = ⟨"Cozinha Antiga", Sala.nulo, Sala.nulo⟩ ∧
      s1.visitadas = ["Hall de Entrada", "Sala de Estar", "Cozinha Antiga"] ∧
      s1.visitadas.getLast? = some "Cozinha Antiga" :=
  chegada_a_folha.1 "Hall de Entrada" (mapaDemo.seguir [Lado.esq]) (mapaDemo.seguir [Lado.dir])
    (bytes "e\ne\nd\n") [] 2 _ (Option.some_get _).symm (by decide) (by decide)

/-- C9: for every map whose root has a child, `explorarSalas` on an empty input
returns with a visit log of exactly one entry, the name of the root; and at any
prompt (a room with a way out) an exhausted input ends the loop in that pass
with cursor and log unchanged. -/
theorem fim_da_entrada :
    (∀ (nome : String) (esq dir : Sala) (stdout : List Msg),
      esq.existe = true ∨ dir.existe = true →
      ∃ s, explorarSalas (Sala.no nome esq dir) [] stdout = some (Resultado.explorado s) ∧
        s.visitadas = [nome]) ∧
    (∀ s : Estado, s.atual.esq.existe = true ∨ s.atual.dir.existe = true → s.stdin = [] →
      ∃ s1, iteracao s = Passo.encerra s1 ∧ s1.visitadas = s.visitadas ∧
        s1.atual = s.atual) := by
  constructor
  · intro nome esq dir stdout h
    have hi := iteracao_fim (estadoInicial ⟨nome, esq, dir⟩ [] stdout) h rfl
    have hl : laco 1 (estadoInicial ⟨nome, esq, dir⟩ [] stdout) = some
        (Estado.printf
          { estadoInicial ⟨nome, esq, dir⟩ [] stdout with
            stdout := (estadoInicial ⟨nome, esq, dir⟩ [] stdout).stdout ++ menu ⟨nome, esq, dir⟩ }
          Msg.entradaEncerrada) := by
      simp only [laco, hi]
      rfl
    have hx : explorarSalas (Sala.no nome esq dir) [] stdout =
        (laco 1 (estadoInicial ⟨nome, esq, dir⟩ [] stdout)).map
          fun s => Resultado.explorado s.exibirCaminho := rfl
    rw [hx, hl]
    exact ⟨_, rfl, rfl⟩
  · intro s hs hf
    exact ⟨_, iteracao_fim s hs hf, rfl, rfl⟩

/-- The demo map with no input at all: the log is the hall alone. -/
theorem fim_da_entrada_witness :
    ∃ s, explorarSalas mapaDemo [] [] = some (Resultado.explorado s) ∧
      s.visitadas = ["Hall de Entrada"] :=
  fim_da_entrada.1 "Hall de Entrada" (mapaDemo.seguir [Lado.esq]) (mapaDemo.seguir [Lado.dir]) []
    (Or.inl (by decide))

/-! ## Releasing the map -/

theorem salasLiberadas_append (a b : List Liberacao) :
    salasLiberadas (a ++ b) = salasLiberadas a ++ salasLiberadas b := by
  simp [salasLiberadas]

theorem nomesLiberados_append (a b : List Liberacao) :
    nomesLiberados (a ++ b) = nomesLiberados a ++ nomesLiberados b := by
  simp [nomesLiberados]

theorem salasLiberadas_no (nome : String) (esq dir : Sala) (e : Endereco) :
    salasLiberadas (liberarSalas (Sala.no nome esq dir) e) =
      salasLiberadas (liberarSalas esq (e ++ [Lado.esq])) ++
        salasLiberadas (liberarSalas dir (e ++ [Lado.dir])) ++ [e] := by
  simp [liberarSalas, salasLiberadas]

theorem seguir_nulo (e : Endereco) : Sala.nulo.seguir e = Sala.nulo := by
  cases e <;> rfl

/-- The nodes released from the subtree at address `e` are the addresses that
extend `e` by a path to a node of the subtree. -/
theorem mem_salasLiberadas (raiz : Sala) (e x : Endereco) :
    x ∈ salasLiberadas (liberarSalas raiz e) ↔
      ∃ f, x = e ++ f ∧ (raiz.seguir f).existe = true := by
  induction raiz generalizing e with
  | nulo => simp [liberarSalas, salasLiberadas, seguir_nulo, Sala.existe]
  | no nome esq dir ihe ihd =>
    rw [salasLiberadas_no]
    simp only [List.mem_append, List.mem_singleton, ihe, ihd]
    constructor
    · rintro ((⟨f, rfl, hf⟩ | ⟨f, rfl, hf⟩) | rfl)
      · exact ⟨Lado.esq :: f, by simp, hf⟩
      · exact ⟨Lado.dir :: f, by simp, hf⟩
      · exact ⟨[], by simp, rfl⟩
    · rintro ⟨f, rfl, hf⟩
      cases f with
      | nil => exact Or.inr (by simp)
      | cons lado f =>
        cases lado with
        | esq => exact Or.inl (Or.inl ⟨f, by simp, hf⟩)
        | dir => exact Or.inl (Or.inr ⟨f, by simp, hf⟩)

theorem salasLiberadas_nodup (raiz : Sala) (e : Endereco) :
    (salasLiberadas (liberarSalas raiz e)).Nodup := by
  induction raiz generalizing e with
  | nulo => simp [liberarSalas, salasLiberadas]
  | no nome esq dir ihe ihd =>
    rw [salasLiberadas_no]
    refine List.Nodup.append (List.Nodup.append (ihe _) (ihd _) ?_) (List.nodup_singleton e) ?_
    · intro x hx hy
      obtain ⟨f, rfl, _⟩ := (mem_salasLiberadas _ _ _).1 hx
      obtain ⟨g, hg, _⟩ := (mem_salasLiberadas _ _ _).1 hy
      simp at hg
    · intro x hx hy
      rw [List.mem_singleton] at hy
      subst hy
      rcases List.mem_append.1 hx with h | h
      · obtain ⟨f, hf, _⟩ := (mem_salasLiberadas _ _ _).1 h
        have := congrArg List.length hf
        simp at this
      · obtain ⟨f, hf, _⟩ := (mem_salasLiberadas _ _ _).1 h
        have := congrArg List.length hf
        simp at this

theorem salasLiberadas_length (raiz : Sala) (e : Endereco) :
    (salasLiberadas (liberarSalas raiz e)).length = raiz.tamanho := by
  induction raiz generalizing e with
  | nulo => simp [liberarSalas, salasLiberadas, Sala.tamanho]
  | no nome esq dir ihe ihd =>
    rw [salasLiberadas_no]
    simp [ihe, ihd, Sala.tamanho, Nat.add_assoc]

/-- The `free` calls come in pairs: the name of a node, then the node. -/
theorem liberarSalas_pares (raiz : Sala) (e : Endereco) :
    liberarSalas raiz e =
      (salasLiberadas (liberarSalas raiz e)).flatMap
        fun x => [Liberacao.nome x, Liberacao.sala x] := by
  induction raiz generalizing e with
  | nulo => simp [liberarSalas, salasLiberadas]
  | no nome esq dir ihe ihd =>
    rw [salasLiberadas_no]
    simp only [List.flatMap_append, ← ihe, ← ihd]
    simp [liberarSalas]

theorem nomesLiberados_pares (l : List Endereco) :
    nomesLiberados (l.flatMap fun x => [Liberacao.nome x, Liberacao.sala x]) = l := by
  induction l with
  | nil => rfl
  | cons a l ih =>
    simp only [List.flatMap_cons, nomesLiberados_append, ih]
    simp [nomesLiberados]

/-- A node below the node at `e ++ d` is released before it. -/
theorem liberarSalas_ordem (raiz : Sala) (e d : Endereco) (lado : Lado) (f : Endereco)
    (h : (raiz.seguir (d ++ lado :: f)).existe = true) :
    ∃ a b c, salasLiberadas (liberarSalas raiz e) =
      a ++ (e ++ d ++ lado :: f) :: b ++ (e ++ d) :: c := by
  induction raiz generalizing e d with
  | nulo => simp [seguir_nulo, Sala.existe] at h
  | no nome esq dir ihe ihd =>
    rw [salasLiberadas_no]
    cases d with
    | nil =>
      have hm : e ++ lado :: f ∈ salasLiberadas (liberarSalas esq (e ++ [Lado.esq])) ++
          salasLiberadas (liberarSalas dir (e ++ [Lado.dir])) := by
        rw [List.mem_append, mem_salasLiberadas, mem_salasLiberadas]
        cases lado with
        | esq => exact Or.inl ⟨f, by simp, h⟩
        | dir => exact Or.inr ⟨f, by simp, h⟩
      obtain ⟨a, b, hab⟩ := List.append_of_mem hm
      exact ⟨a, b, [], by simp [hab]⟩
    | cons l0 d =>
      cases l0 with
      | esq =>
        obtain ⟨a, b, c, habc⟩ := ihe (e ++ [Lado.esq]) d h
        exact ⟨a, b, c ++ salasLiberadas (liberarSalas dir (e ++ [Lado.dir])) ++ [e], by
          simp [habc]⟩
      | dir =>
        obtain ⟨a, b, c, habc⟩ := ihd (e ++ [Lado.dir]) d h
        exact ⟨salasLiberadas (liberarSalas esq (e ++ [Lado.esq])) ++ a, b, c ++ [e], by
          simp [habc]⟩

/-- C10: for every finite tree of rooms, `liberarSalas` releases the nodes in
post-order: a node is released if and only if it is a node of the tree, no
node is released twice, the number of released nodes is the number of nodes of
the tree, every node below a node (in its left or its right subtree) is
released before it, and the `free` calls are exactly, for each released node in
turn, its name and then the node, so that each name is released once,
immediately before its node. -/
theorem liberarSalas_pos_ordem (raiz : Sala) :
    (∀ e, e ∈ salasLiberadas (liberarSalas raiz []) ↔ (raiz.seguir e).existe = true) ∧
      (salasLiberadas (liberarSalas raiz [])).Nodup ∧
      (salasLiberadas (liberarSalas raiz [])).length = raiz.tamanho ∧
      (∀ e lado f, (raiz.seguir (e ++ lado :: f)).existe = true →
        ∃ a b c, salasLiberadas (liberarSalas raiz []) = a ++ (e ++ lado :: f) :: b ++ e :: c) ∧
      liberarSalas raiz [] = (salasLiberadas (liberarSalas raiz [])).flatMap
        (fun x => [Liberacao.nome x, Liberacao.sala x]) ∧
      nomesLiberados (liberarSalas raiz []) = salasLiberadas (liberarSalas raiz []) := by
  refine ⟨?_, salasLiberadas_nodup raiz [], salasLiberadas_length raiz [], ?_,
    liberarSalas_pares raiz [], ?_⟩
  · intro e
    rw [mem_salasLiberadas]
    simp
  · intro e lado f h
    simpa using liberarSalas_ordem raiz [] e lado f h
  · conv_lhs => rw [liberarSalas_pares raiz []]
    exact nomesLiberados_pares _

/-- In the demo map the kitchen, at address left-left, is released before the
living room at address left, and eight nodes are released. -/
theorem liberarSalas_pos_ordem_witness :
    (salasLiberadas (liberarSalas mapaDemo [])).length = 8 ∧
      ∃ a b c, salasLiberadas (liberarSalas mapaDemo []) =
        a ++ ([Lado.esq] ++ Lado.esq :: []) :: b ++ [Lado.esq] :: c :=
  ⟨(liberarSalas_pos_ordem mapaDemo).2.2.1,
    (liberarSalas_pos_ordem mapaDemo).2.2.2.1 [Lado.esq] Lado.esq [] (by decide)⟩

/-! ## The empty map, the quit choice and the menu -/

/-- C11: called with a `NULL` root, `explorarSalas` returns at once, for every
input: the only output is the empty-map message, no byte of the input is
consumed, there is no visit log, and nothing of the path display (banners,
names, arrows) is printed. -/
theorem mapa_vazio (stdin : List Nat) (stdout : List Msg) :
    ∃ r, explorarSalas Sala.nulo stdin stdout = some r ∧
      r.stdout = stdout ++ [Msg.mapaVazio] ∧
      Msg.mapaVazio.texto = "Mapa vazio. Não há salas para explorar.\n" ∧
      Msg.mapaVazio.doCaminho = false ∧
      r.stdin = stdin ∧
      r.visitadas = none :=
  ⟨Resultado.vazio stdin (stdout ++ [Msg.mapaVazio]), rfl, rfl, rfl, rfl, rfl, rfl⟩

/-- The loop started at a room with a way out, on an input that begins with a
line whose choice is `s`, ends in its first pass. -/
theorem laco_sair (s : Estado) (linha resto : List Nat) (n : Nat)
    (hs : s.atual.esq.existe = true ∨ s.atual.dir.existe = true)
    (hk : linha.length ≤ 30) (hn : ∀ b ∈ linha, b ≠ 10) (ho : opc (linha ++ [10]) = 115) :
    laco (n + 1) { s with stdin := linha ++ 10 :: resto } =
      some (Estado.printf
        { s with stdout := s.stdout ++ menu s.atual, stdin := resto } Msg.optouSair) := by
  have hl := fgets_linha linha resto hk hn
  have hi := iteracao_lida { s with stdin := linha ++ 10 :: resto } (linha ++ [10]) resto hs hl
  rw [ho, decidir_sair] at hi
  simp only [laco, hi]

/-- C13: at a room with a way out, a line whose choice is `s` ends the loop in
that pass, with cursor and log unchanged and only the bytes of that read
consumed.  When the line fits the buffer, the loop started there ends with the
same log and cursor whatever follows the line, and what follows is left
unread. -/
theorem sair_encerra :
    (∀ (s : Estado) (entrada resto : List Nat),
      s.atual.esq.existe = true ∨ s.atual.dir.existe = true →
      fgets 32 s.stdin = some (entrada, resto) → opc entrada = 115 →
      ∃ s1, iteracao s = Passo.encerra s1 ∧ s1.atual = s.atual ∧
        s1.visitadas = s.visitadas ∧ s1.stdin = resto) ∧
    (∀ (s : Estado) (linha : List Nat),
      s.atual.esq.existe = true ∨ s.atual.dir.existe = true →
      linha.length ≤ 30 → (∀ b ∈ linha, b ≠ 10) → opc (linha ++ [10]) = 115 →
      ∀ (resto : List Nat) (n : Nat),
        ∃ s1, laco (n + 1) { s with stdin := linha ++ 10 :: resto } = some s1 ∧
          s1.atual = s.atual ∧ s1.visitadas = s.visitadas ∧ s1.stdin = resto) := by
  constructor
  · intro s entrada resto hs hl ho
    rw [iteracao_lida s entrada resto hs hl, ho, decidir_sair]
    exact ⟨_, rfl, rfl, rfl, rfl⟩
  · intro s linha hs hk hn ho resto n
    exact ⟨_, laco_sair s linha resto n hs hk hn ho, rfl, rfl, rfl⟩

/-- At the hall of the demo map the line `S` ends the loop; the line `d` that
follows is not read and the log is still the hall alone. -/
theorem sair_encerra_witness :
    ∃ s1, laco (7 + 1)
        { estadoInicial
            ⟨"Hall de Entrada", mapaDemo.seguir [Lado.esq], mapaDemo.seguir [Lado.dir]⟩ [] [] with
          stdin := [83] ++ 10 :: bytes "d\n" } = some s1 ∧
      s1.atual = ⟨"Hall de Entrada", mapaDemo.seguir [Lado.esq], mapaDemo.seguir [Lado.dir]⟩ ∧
      s1.visitadas = ["Hall de Entrada"] ∧ s1.stdin = bytes "d\n" :=
  sair_encerra.2
    (estadoInicial ⟨"Hall de Entrada", mapaDemo.seguir [Lado.esq], mapaDemo.seguir [Lado.dir]⟩
      [] [])
    [83] (Or.inl (by decide)) (by decide) (by decide) (by decide) (bytes "d\n") 7

theorem menu_esquerda (c : Comodo) (nome : String) :
    Msg.opcaoEsquerda nome ∈ menu c ↔ ∃ esq dir, c.esq = Sala.no nome esq dir := by
  obtain ⟨n, e, d⟩ := c
  cases e <;> cases d <;> simp [menu, eq_comm]

theorem menu_direita (c : Comodo) (nome : String) :
    Msg.opcaoDireita nome ∈ menu c ↔ ∃ esq dir, c.dir = Sala.no nome esq dir := by
  obtain ⟨n, e, d⟩ := c
  cases e <;> cases d <;> simp [menu, eq_comm]

theorem menu_count_esquerda (c : Comodo) (nome : String) :
    (menu c).count (Msg.opcaoEsquerda nome) ≤ 1 := by
  obtain ⟨n, e, d⟩ := c
  cases e <;> cases d <;> simp [menu, List.count_cons]
  all_goals split <;> omega

theorem menu_count_direita (c : Comodo) (nome : String) :
    (menu c).count (Msg.opcaoDireita nome) ≤ 1 := by
  obtain ⟨n, e, d⟩ := c
  cases e <;> cases d <;> simp [menu, List.count_cons]
  all_goals split <;> omega

theorem menu_sair (c : Comodo) : Msg.opcaoSair ∈ menu c := by
  simp [menu]

/-- What a pass prints at a room with a way out: the menu of the room, then
one message. -/
theorem iteracao_imprime_menu (s : Estado)
    (hs : s.atual.esq.existe = true ∨ s.atual.dir.existe = true) :
    ∃ m, (iteracao s).estado.stdout = s.stdout ++ menu s.atual ++ [m] ∧ m.doCaminho = false := by
  cases hl : fgets 32 s.stdin with
  | none =>
    have hf : s.stdin = [] := by
      cases h : s.stdin with
      | nil => rfl
      | cons c l => simp [fgets, h] at hl
    rw [iteracao_fim s hs hf]
    exact ⟨Msg.entradaEncerrada, rfl, rfl⟩
  | some par =>
    obtain ⟨entrada, resto⟩ := par
    rw [iteracao_lida s entrada resto hs hl]
    unfold decidir
    split
    · exact ⟨_, rfl, rfl⟩
    split
    · exact ⟨_, rfl, rfl⟩
    split
    · cases hc : s.atual.esq with
      | nulo => exact ⟨Msg.semEsquerda, by simp [Estado.irPara, hc, Passo.estado, Estado.printf], rfl⟩
      | no nome esq dir =>
        exact ⟨Msg.entrou nome, by
          simp [Estado.irPara, hc, Passo.estado, Estado.printf, Estado.entrar, Estado.registrar], rfl⟩
    split
    · cases hc : s.atual.dir with
      | nulo => exact ⟨Msg.semDireita, by simp [Estado.irPara, hc, Passo.estado, Estado.printf], rfl⟩
      | no nome esq dir =>
        exact ⟨Msg.entrou nome, by
          simp [Estado.irPara, hc, Passo.estado, Estado.printf, Estado.entrar, Estado.registrar], rfl⟩
    · exact ⟨_, rfl, rfl⟩

/-- C14: at every prompt (a pass at a room with a way out) the pass prints the
menu of the room and then one answer.  The menu starts with the name of the
room, holds a left-direction line if and only if the room has a left child and
a right-direction line if and only if it has a right child, each naming that
child, each at most once, and always holds the quit line and the prompt. -/
theorem menu_do_comodo (s : Estado)
    (hs : s.atual.esq.existe = true ∨ s.atual.dir.existe = true) :
    (∃ m, (iteracao s).estado.stdout = s.stdout ++ menu s.atual ++ [m] ∧
      m.doCaminho = false) ∧
    (∀ nome, Msg.opcaoEsquerda nome ∈ menu s.atual ↔
      ∃ esq dir, s.atual.esq = Sala.no nome esq dir) ∧
    (∀ nome, Msg.opcaoDireita nome ∈ menu s.atual ↔
      ∃ esq dir, s.atual.dir = Sala.no nome esq dir) ∧
    (∀ nome, (menu s.atual).count (Msg.opcaoEsquerda nome) ≤ 1 ∧
      (menu s.atual).count (Msg.opcaoDireita nome) ≤ 1) ∧
    (menu s.atual).count Msg.opcaoSair = 1 ∧
    (menu s.atual).head? = some (Msg.estaNaSala s.atual.nome) ∧
    (menu s.atual).getLast? = some Msg.digite ∧
    (∀ nome, (Msg.opcaoEsquerda nome).texto = "  (e) Esquerda -> " ++ nome ++ "\n" ∧
      (Msg.opcaoDireita nome).texto = "  (d) Direita  -> " ++ nome ++ "\n") ∧
    Msg.opcaoSair.texto = "  (s) Sair da exploração\n" := by
  refine ⟨iteracao_imprime_menu s hs, menu_esquerda s.atual, menu_direita s.atual,
    fun nome => ⟨menu_count_esquerda s.atual nome, menu_count_direita s.atual nome⟩, ?_, ?_,
    ?_, fun _ => ⟨rfl, rfl⟩, rfl⟩
  · obtain ⟨n, e, d⟩ := s.atual
    cases e <;> cases d <;> simp [menu, List.count_cons]
  · simp [menu]
  · obtain ⟨n, e, d⟩ := s.atual
    cases e <;> cases d <;> simp [menu]

/-- At "Sala de Estar" of the demo map, which has only a left child, the menu
names "Cozinha Antiga" on the left and has no line for the right. -/
theorem menu_do_comodo_witness :
    (Msg.opcaoEsquerda "Cozinha Antiga" ∈
        menu ⟨"Sala de Estar", Sala.no "Cozinha Antiga" Sala.nulo Sala.nulo, Sala.nulo⟩) ∧
      ¬ ∃ nome, Msg.opcaoDireita nome ∈
        menu ⟨"Sala de Estar", Sala.no "Cozinha Antiga" Sala.nulo Sala.nulo, Sala.nulo⟩ :=
  have h := menu_do_comodo
    { atual := ⟨"Sala de Estar", Sala.no "Cozinha Antiga" Sala.nulo Sala.nulo, Sala.nulo⟩
      visitadas := ["Hall de Entrada", "Sala de Estar"]
      capacidade := 8
      stdin := []
      stdout := [] } (Or.inl rfl)
  ⟨(h.2.1 "Cozinha Antiga").2 ⟨Sala.nulo, Sala.nulo, rfl⟩,
    fun ⟨nome, hm⟩ => by
      obtain ⟨e, d, hd⟩ := (h.2.2.1 nome).1 hm
      exact Sala.noConfusion hd⟩

/-! ## The path display -/

theorem menu_naoCaminho (c : Comodo) : ∀ m ∈ menu c, m.doCaminho = false := by
  obtain ⟨n, e, d⟩ := c
  cases e <;> cases d <;> simp [menu, Msg.doCaminho]

/-- A pass only adds to the output, and nothing of the path display. -/
theorem iteracao_stdout (s : Estado) :
    ∃ novo, (iteracao s).estado.stdout = s.stdout ++ novo ∧
      ∀ m ∈ novo, m.doCaminho = false := by
  by_cases hf : s.atual.esq.existe = false ∧ s.atual.dir.existe = false
  · refine ⟨[Msg.semSaidas s.atual.nome], ?_, by simp [Msg.doCaminho]⟩
    simp only [iteracao, hf, and_self, if_true]
    rfl
  · have hs : s.atual.esq.existe = true ∨ s.atual.dir.existe = true := by
      by_cases h1 : s.atual.esq.existe = true
      · exact Or.inl h1
      · by_cases h2 : s.atual.dir.existe = true
        · exact Or.inr h2
        · simp at h1 h2
          exact absurd ⟨h1, h2⟩ hf
    obtain ⟨m, hm, hd⟩ := iteracao_imprime_menu s hs
    refine ⟨menu s.atual ++ [m], by rw [hm, List.append_assoc], ?_⟩
    intro x hx
    rcases List.mem_append.1 hx with h | h
    · exact menu_naoCaminho s.atual x h
    · rw [List.mem_singleton] at h
      rw [h]
      exact hd

/-- The loop only adds to the output, and nothing of the path display. -/
theorem laco_stdout (n : Nat) (s s1 : Estado) (h : laco n s = some s1) :
    ∃ novo, s1.stdout = s.stdout ++ novo ∧ ∀ m ∈ novo, m.doCaminho = false := by
  induction n generalizing s with
  | zero => simp [laco] at h
  | succ n ih =>
    obtain ⟨novo, hn, hd⟩ := iteracao_stdout s
    cases hp : iteracao s with
    | encerra s2 =>
      rw [hp] at hn
      simp only [laco, hp, Option.some.injEq] at h
      subst h
      exact ⟨novo, hn, hd⟩
    | continua s2 =>
      rw [hp] at hn
      simp only [laco, hp] at h
      obtain ⟨mais, hm, hd2⟩ := ih s2 h
      refine ⟨novo ++ mais, ?_, ?_⟩
      · rw [hm]
        show s2.stdout ++ mais = _
        have : s2.stdout = s.stdout ++ novo := hn
        rw [this, List.append_assoc]
      · intro x hx
        rcases List.mem_append.1 hx with h1 | h1
        · exact hd x h1
        · exact hd2 x h1

theorem caminho_intersperse (v : List String) :
    (caminho v).map Msg.texto = List.intersperse " -> " v := by
  induction v with
  | nil => rfl
  | cons x r ih =>
    cases r with
    | nil => rfl
    | cons y r =>
      simp only [caminho, List.map_cons, List.intersperse] at ih ⊢
      rw [ih]
      rfl

theorem caminho_count (v : List String) :
    (caminho v).count Msg.cabecalho = 0 ∧ (caminho v).count Msg.rodape = 0 := by
  induction v with
  | nil => simp [caminho]
  | cons x r ih =>
    cases r with
    | nil => simp [caminho, List.count_cons]
    | cons y r =>
      simp only [caminho, List.count_cons] at ih ⊢
      simpa using ih

theorem foldl_juntar (acc : String) (l : List String) :
    l.foldl (fun r s => r ++ s) acc = acc ++ String.join l := by
  induction l generalizing acc with
  | nil => simp [String.join]
  | cons a l ih =>
    simp only [String.join, List.foldl_cons] at ih ⊢
    rw [ih, ih ("" ++ a), String.empty_append, String.append_assoc]

theorem juntar_cons (a : String) (l : List String) :
    String.join (a :: l) = a ++ String.join l := by
  simp only [String.join, List.foldl_cons]
  rw [foldl_juntar, String.empty_append]
  rfl

theorem intercalar_go (acc sep : String) (l : List String) :
    String.intercalate.go acc sep l = acc ++ String.join (l.map fun x => sep ++ x) := by
  induction l generalizing acc with
  | nil => simp [String.intercalate.go, String.join]
  | cons a l ih =>
    simp only [String.intercalate.go, List.map_cons]
    rw [ih, juntar_cons, String.append_assoc, String.append_assoc, String.append_assoc]

theorem caminho_texto_cons (x : String) (r : List String) :
    String.join ((caminho (x :: r)).map Msg.texto) =
      x ++ String.join (r.map fun y => " -> " ++ y) := by
  induction r generalizing x with
  | nil => simp [caminho, Msg.texto, juntar_cons, String.join]
  | cons y r ih =>
    simp only [caminho, List.map_cons, juntar_cons, Msg.texto]
    rw [ih y, String.append_assoc]

/-- The text of the path line is the log joined by `" -> "`. -/
theorem caminho_texto (v : List String) :
    String.join ((caminho v).map Msg.texto) = " -> ".intercalate v := by
  cases v with
  | nil => rfl
  | cons x r =>
    rw [caminho_texto_cons]
    simp only [String.intercalate]
    rw [intercalar_go]

/-- C12: for every map with a root and every input, however the loop ends,
the output of `explorarSalas` is what the loop printed (nothing of the path
display), then the header banner, then the path line, then the footer banner.
The path line is the entries of the visit log in order with `" -> "` between
consecutive entries and nowhere else, so its text is the log joined by
`" -> "`; each banner is printed exactly once. -/
theorem caminho_impresso (nome : String) (esq dir : Sala) (stdin : List Nat)
    (stdout : List Msg) :
    ∃ s antes, explorarSalas (Sala.no nome esq dir) stdin stdout =
        some (Resultado.explorado s) ∧
      s.stdout = stdout ++ (antes ++ [Msg.cabecalho] ++ caminho s.visitadas ++ [Msg.rodape]) ∧
      (∀ m ∈ antes, m.doCaminho = false) ∧
      (caminho s.visitadas).map Msg.texto = List.intersperse " -> " s.visitadas ∧
      String.join ((caminho s.visitadas).map Msg.texto) = " -> ".intercalate s.visitadas ∧
      (antes ++ [Msg.cabecalho] ++ caminho s.visitadas ++ [Msg.rodape]).count Msg.cabecalho = 1 ∧
      (antes ++ [Msg.cabecalho] ++ caminho s.visitadas ++ [Msg.rodape]).count Msg.rodape = 1 ∧
      caminho [nome] = [Msg.visitada nome] ∧
      Msg.cabecalho.texto = "\n--- Caminho percorrido ---\n" ∧
      Msg.rodape.texto = "\n-------------------------\n" := by
  obtain ⟨s1, h1⟩ := laco_termina (stdin.length + 1)
    (estadoInicial ⟨nome, esq, dir⟩ stdin stdout) (Nat.lt_succ_self _)
  obtain ⟨novo, hn, hd⟩ := laco_stdout _ _ _ h1
  have hant : ∀ m ∈ Msg.hallDeEntrada nome :: novo, m.doCaminho = false := by
    intro m hm
    rcases List.mem_cons.1 hm with h | h
    · rw [h]; rfl
    · exact hd m h
  have hc0 : (Msg.hallDeEntrada nome :: novo).count Msg.cabecalho = 0 :=
    List.count_eq_zero.2 fun hm => by simpa [Msg.doCaminho] using hant _ hm
  have hr0 : (Msg.hallDeEntrada nome :: novo).count Msg.rodape = 0 :=
    List.count_eq_zero.2 fun hm => by simpa [Msg.doCaminho] using hant _ hm
  have hcc := caminho_count s1.visitadas
  refine ⟨s1.exibirCaminho, Msg.hallDeEntrada nome :: novo, by simp [explorarSalas, h1], ?_,
    hant, caminho_intersperse _, caminho_texto _, ?_, ?_, rfl, rfl, rfl⟩
  · show s1.stdout ++ [Msg.cabecalho] ++ caminho s1.visitadas ++ [Msg.rodape] = _
    rw [hn]
    simp [estadoInicial, Estado.registrar, Estado.printf, Estado.exibirCaminho]
  · show (Msg.hallDeEntrada nome :: novo ++ [Msg.cabecalho] ++ caminho s1.visitadas ++
      [Msg.rodape]).count Msg.cabecalho = 1
    simp only [List.count_append, hc0, hcc.1]
    simp [List.count_cons]
  · show (Msg.hallDeEntrada nome :: novo ++ [Msg.cabecalho] ++ caminho s1.visitadas ++
      [Msg.rodape]).count Msg.rodape = 1
    simp only [List.count_append, hr0, hcc.2]
    simp [List.count_cons]

/-- On the demo map with the input `d`, `d` the path line is the log joined by
`" -> "`. -/
theorem caminho_impresso_witness :
    ∃ s, explorarSalas mapaDemo (bytes "d\nd\n") [] = some (Resultado.explorado s) ∧
      String.join ((caminho s.visitadas).map Msg.texto) = " -> ".intercalate s.visitadas :=
  match caminho_impresso "Hall de Entrada" (mapaDemo.seguir [Lado.esq])
    (mapaDemo.seguir [Lado.dir]) (bytes "d\nd\n") [] with
  | ⟨s, _, h1, _, _, _, h5, _⟩ => ⟨s, h1, h5⟩

/-! ## The log is a path of the map -/

theorem seguir_snoc (raiz : Sala) (e : Endereco) (nome : String) (esq dir : Sala)
    (h : raiz.seguir e = Sala.no nome esq dir) :
    raiz.seguir (e ++ [Lado.esq]) = esq ∧ raiz.seguir (e ++ [Lado.dir]) = dir := by
  induction e generalizing raiz with
  | nil =>
    cases raiz with
    | nulo => simp [Sala.seguir] at h
    | no n l r =>
      simp only [Sala.seguir, Sala.no.injEq] at h
      obtain ⟨_, rfl, rfl⟩ := h
      simp [Sala.seguir]
  | cons lado e ih =>
    cases raiz with
    | nulo => simp [Sala.seguir] at h
    | no n l r =>
      cases lado with
      | esq => exact ih l h
      | dir => exact ih r h

theorem nomesAte_snoc (raiz : Sala) (e : Endereco) (lado : Lado) (nome : String)
    (esq dir : Sala) (he : (raiz.seguir e).existe = true)
    (h : raiz.seguir (e ++ [lado]) = Sala.no nome esq dir) :
    raiz.nomesAte (e ++ [lado]) = raiz.nomesAte e ++ [nome] := by
  induction e generalizing raiz with
  | nil =>
    cases raiz with
    | nulo => simp [Sala.seguir, Sala.existe] at he
    | no n l r =>
      cases lado with
      | esq =>
        have hl : l = Sala.no nome esq dir := by simpa [Sala.seguir] using h
        subst hl
        simp [Sala.nomesAte]
      | dir =>
        have hr : r = Sala.no nome esq dir := by simpa [Sala.seguir] using h
        subst hr
        simp [Sala.nomesAte]
  | cons l0 e ih =>
    cases raiz with
    | nulo => simp [Sala.seguir, Sala.existe] at he
    | no n l r =>
      cases l0 with
      | esq =>
        have := ih l he h
        simp [Sala.nomesAte, this]
      | dir =>
        have := ih r he h
        simp [Sala.nomesAte, this]

theorem nomesAte_length (raiz : Sala) (e : Endereco) (he : (raiz.seguir e).existe = true) :
    (raiz.nomesAte e).length = e.length + 1 ∧ e.length + 1 ≤ raiz.niveis := by
  induction e generalizing raiz with
  | nil =>
    cases raiz with
    | nulo => simp [Sala.seguir, Sala.existe] at he
    | no n l r => simp [Sala.nomesAte, Sala.niveis]
  | cons l0 e ih =>
    cases raiz with
    | nulo => simp [Sala.seguir, Sala.existe] at he
    | no n l r =>
      cases l0 with
      | esq =>
        have := ih l he
        simp only [Sala.nomesAte, List.length_cons, Sala.niveis]
        omega
      | dir =>
        have := ih r he
        simp only [Sala.nomesAte, List.length_cons, Sala.niveis]
        omega

theorem nomesAte_head (nome : String) (esq dir : Sala) (e : Endereco) :
    ((Sala.no nome esq dir).nomesAte e).head? = some nome := by
  cases e with
  | nil => rfl
  | cons l0 e => cases l0 <;> rfl

theorem estadoInicial_noCaminho (nome : String) (esq dir : Sala) (stdin : List Nat)
    (stdout : List Msg) :
    (estadoInicial ⟨nome, esq, dir⟩ stdin stdout).noCaminho (Sala.no nome esq dir) :=
  ⟨[], rfl, rfl⟩

/-- A pass keeps the log on a path of the map that ends at the cursor. -/
theorem efeito_noCaminho (raiz : Sala) (s : Estado) (p : Passo) (h : s.noCaminho raiz)
    (he : Efeito s p) : p.estado.noCaminho raiz := by
  obtain ⟨e, h1, h2⟩ := h
  cases he with
  | fim s1 ha hv _ => exact ⟨e, by rw [h1]; show _ = s1.atual.sala; rw [ha], by
      show s1.visitadas = _; rw [hv, h2]⟩
  | repete s1 ha hv _ => exact ⟨e, by rw [h1]; show _ = s1.atual.sala; rw [ha], by
      show s1.visitadas = _; rw [hv, h2]⟩
  | move s1 nome esq dir hf ha hv _ =>
    have hx : (raiz.seguir e).existe = true := by rw [h1]; rfl
    have hs := seguir_snoc raiz e s.atual.nome s.atual.esq s.atual.dir h1
    rcases hf with hf | hf
    · have h3 : raiz.seguir (e ++ [Lado.esq]) = Sala.no nome esq dir := by rw [hs.1, hf]
      refine ⟨e ++ [Lado.esq], ?_, ?_⟩
      · show _ = s1.atual.sala
        rw [h3, ha]
        rfl
      · show s1.visitadas = _
        rw [hv, h2, nomesAte_snoc raiz e Lado.esq nome esq dir hx h3]
    · have h3 : raiz.seguir (e ++ [Lado.dir]) = Sala.no nome esq dir := by rw [hs.2, hf]
      refine ⟨e ++ [Lado.dir], ?_, ?_⟩
      · show _ = s1.atual.sala
        rw [h3, ha]
        rfl
      · show s1.visitadas = _
        rw [hv, h2, nomesAte_snoc raiz e Lado.dir nome esq dir hx h3]

theorem aposPasses_noCaminho (raiz : Sala) (k : Nat) (s0 s : Estado) (h0 : s0.noCaminho raiz)
    (h : aposPasses k s0 = some s) : s.noCaminho raiz := by
  induction k generalizing s0 with
  | zero =>
    simp only [aposPasses, Option.some.injEq] at h
    subst h
    exact h0
  | succ k ih =>
    have he := efeito_noCaminho raiz s0 _ h0 (iteracao_efeito s0)
    cases hp : iteracao s0 with
    | encerra s2 => simp [aposPasses, hp] at h
    | continua s2 =>
      rw [hp] at he
      simp only [aposPasses, hp] at h
      exact ih s2 he h

theorem laco_noCaminho (raiz : Sala) (n : Nat) (s0 s : Estado) (h0 : s0.noCaminho raiz)
    (h : laco n s0 = some s) : s.noCaminho raiz := by
  induction n generalizing s0 with
  | zero => simp [laco] at h
  | succ n ih =>
    have he := efeito_noCaminho raiz s0 _ h0 (iteracao_efeito s0)
    cases hp : iteracao s0 with
    | encerra s2 =>
      rw [hp] at he
      simp only [laco, hp, Option.some.injEq] at h
      subst h
      exact he
    | continua s2 =>
      rw [hp] at he
      simp only [laco, hp] at h
      exact ih s2 he h

/-- What a log on a path of the map looks like. -/
theorem noCaminho_forma (nome : String) (esq dir : Sala) (s : Estado)
    (h : s.noCaminho (Sala.no nome esq dir)) :
    ∃ e : Endereco, (Sala.no nome esq dir).seguir e = s.atual.sala ∧
      s.visitadas = (Sala.no nome esq dir).nomesAte e ∧
      s.visitadas.length = e.length + 1 ∧
      s.visitadas.head? = some nome ∧
      s.visitadas.length ≤ (Sala.no nome esq dir).altura + 1 := by
  obtain ⟨e, h1, h2⟩ := h
  have hx : ((Sala.no nome esq dir).seguir e).existe = true := by rw [h1]; rfl
  have hl := nomesAte_length _ e hx
  refine ⟨e, h1, h2, by rw [h2]; exact hl.1, by rw [h2]; exact nomesAte_head nome esq dir e, ?_⟩
  rw [h2, hl.1]
  have := hl.2
  simp only [Sala.altura]
  omega

/-- C15: in every run of `explorarSalas` on a map with a root, at every loop
head and at the end, the visit log is the list of names along a downward path
of the map from its root to the cursor: there is an address `e` that leads
from the root to the cursor and the log is the names of the rooms met along
`e` (so its first entry is the name of the root, each later entry names a child
of the room before it, and its last entry is the name of the cursor).  The log
therefore has `e.length + 1` entries, at most the height of the map plus
one. -/
theorem registro_e_caminho (nome : String) (esq dir : Sala) (stdin : List Nat)
    (stdout : List Msg) :
    (∀ (k : Nat) (s : Estado),
      aposPasses k (estadoInicial ⟨nome, esq, dir⟩ stdin stdout) = some s →
      ∃ e : Endereco, (Sala.no nome esq dir).seguir e = s.atual.sala ∧
        s.visitadas = (Sala.no nome esq dir).nomesAte e ∧
        s.visitadas.length = e.length + 1 ∧
        s.visitadas.head? = some nome ∧
        s.visitadas.getLast? = some s.atual.nome ∧
        s.visitadas.length ≤ (Sala.no nome esq dir).altura + 1) ∧
    (∃ s, explorarSalas (Sala.no nome esq dir) stdin stdout = some (Resultado.explorado s) ∧
      ∃ e : Endereco, (Sala.no nome esq dir).seguir e = s.atual.sala ∧
        s.visitadas = (Sala.no nome esq dir).nomesAte e ∧
        s.visitadas.length = e.length + 1 ∧
        s.visitadas.head? = some nome ∧
        s.visitadas.length ≤ (Sala.no nome esq dir).altura + 1) := by
  constructor
  · intro k s hk
    have hc := aposPasses_noCaminho _ k _ s (estadoInicial_noCaminho nome esq dir stdin stdout) hk
    have hl := aposPasses_noCursor k _ s (estadoInicial_noCursor _ stdin stdout) hk
    obtain ⟨e, h1, h2, h3, h4, h5⟩ := noCaminho_forma nome esq dir s hc
    exact ⟨e, h1, h2, h3, h4, hl, h5⟩
  · obtain ⟨s1, h1⟩ := laco_termina (stdin.length + 1)
      (estadoInicial ⟨nome, esq, dir⟩ stdin stdout) (Nat.lt_succ_self _)
    have hc := laco_noCaminho _ _ _ s1 (estadoInicial_noCaminho nome esq dir stdin stdout) h1
    exact ⟨s1.exibirCaminho, by simp [explorarSalas, h1], noCaminho_forma nome esq dir _ hc⟩

/-- On the demo map, after the two passes of the input `d`, `e` the log is the
names along the address right-left, which leads to "Escritório". -/
theorem registro_e_caminho_witness :
    ∃ e : Endereco, mapaDemo.seguir e =
        (Sala.no "Escritório" (Sala.no "Porão Misterioso" Sala.nulo Sala.nulo)
          (Sala.no "Sótão empoeirado" Sala.nulo Sala.nulo)) ∧
      ["Hall de Entrada", "Biblioteca", "Escritório"] = mapaDemo.nomesAte e ∧
      3 = e.length + 1 ∧ 3 ≤ mapaDemo.altura + 1 :=
  match (registro_e_caminho "Hall de Entrada" (mapaDemo.seguir [Lado.esq])
    (mapaDemo.seguir [Lado.dir]) (bytes "d\ne\n") []).1 2
    ((aposPasses 2 (estadoInicial
      ⟨"Hall de Entrada", mapaDemo.seguir [Lado.esq], mapaDemo.seguir [Lado.dir]⟩
      (bytes "d\ne\n") [])).get (by decide)) (Option.some_get _).symm with
  | ⟨e, h1, h2, h3, _, _, h6⟩ => ⟨e, h1, h2, h3, h6⟩

/-! ## The number of passes -/

theorem decidir_stdin (s : Estado) (o : Nat) : (decidir s o).estado.stdin = s.stdin := by
  unfold decidir
  split
  · rfl
  split
  · rfl
  split
  · cases hc : s.atual.esq <;> rfl
  split
  · cases hc : s.atual.dir <;> rfl
  · rfl

/-- A pass that does not leave the loop has read a line with `fgets`. -/
theorem iteracao_continua_leu (s s1 : Estado) (h : iteracao s = Passo.continua s1) :
    ∃ entrada, fgets 32 s.stdin = some (entrada, s1.stdin) := by
  by_cases hf : s.atual.esq.existe = false ∧ s.atual.dir.existe = false
  · simp [iteracao, hf] at h
  · cases hl : fgets 32 s.stdin with
    | none => simp [iteracao, hf, hl] at h
    | some par =>
      obtain ⟨entrada, resto⟩ := par
      simp only [iteracao, hf, if_false, hl] at h
      have hd := decidir_stdin
        { s with stdout := s.stdout ++ menu s.atual, stdin := resto } (opc entrada)
      rw [h] at hd
      exact ⟨entrada, by rw [show s1.stdin = resto from hd]⟩

theorem leituras_le (m : Nat) (stdin : List Nat) : leituras m stdin ≤ stdin.length := by
  induction m generalizing stdin with
  | zero => simp [leituras]
  | succ m ih =>
    cases hl : fgets 32 stdin with
    | none => simp [leituras, hl]
    | some par =>
      obtain ⟨entrada, resto⟩ := par
      have hc := fgets_consome stdin entrada resto hl
      have := ih resto
      simp only [leituras, hl]
      omega

theorem leituras_iguais (m n : Nat) (stdin : List Nat) (hm : stdin.length ≤ m)
    (hn : stdin.length ≤ n) : leituras m stdin = leituras n stdin := by
  induction m generalizing n stdin with
  | zero =>
    have h0 : stdin = [] := List.length_eq_zero.1 (by omega)
    subst h0
    cases n <;> simp [leituras, fgets]
  | succ m ih =>
    cases hl : fgets 32 stdin with
    | none =>
      cases n <;> simp [leituras, hl]
    | some par =>
      obtain ⟨entrada, resto⟩ := par
      have hc := fgets_consome stdin entrada resto hl
      cases n with
      | zero => omega
      | succ n =>
        simp only [leituras, hl]
        rw [ih n resto (by omega) (by omega)]

/-- Once the fuel covers the input, more fuel does not change the number of
reads. -/
theorem leituras_mais (m : Nat) (stdin : List Nat) (h : stdin.length ≤ m) :
    leituras m stdin = leituras stdin.length stdin :=
  leituras_iguais m stdin.length stdin h (Nat.le_refl _)

/-- The passes of the loop are at most one more than the reads the input can
supply. -/
theorem passes_le (n m : Nat) (s : Estado) (h : s.stdin.length ≤ m) :
    passes n s ≤ leituras m s.stdin + 1 := by
  induction n generalizing s m with
  | zero => simp [passes]
  | succ n ih =>
    cases hp : iteracao s with
    | encerra s1 => simp [passes, hp]
    | continua s1 =>
      obtain ⟨entrada, hl⟩ := iteracao_continua_leu s s1 hp
      have hc := fgets_consome _ _ _ hl
      cases m with
      | zero => omega
      | succ m =>
        have := ih m s1 (by omega)
        simp only [passes, hp, leituras, hl]
        omega

/-- Once the loop has ended, more fuel does not change the number of passes. -/
theorem passes_mais (n m : Nat) (s s1 : Estado) (h : laco n s = some s1) (hm : n ≤ m) :
    passes m s = passes n s := by
  induction n generalizing s m with
  | zero => simp [laco] at h
  | succ n ih =>
    cases m with
    | zero => omega
    | succ m =>
      cases hp : iteracao s with
      | encerra s2 => simp [passes, hp]
      | continua s2 =>
        simp only [laco, hp] at h
        simp only [passes, hp]
        rw [ih m s2 h (by omega)]

/-- C16: from every state (every finite map, cursor and input), the loop of
`explorarSalas` ends within `stdin.length + 1` passes, and `explorarSalas`
returns.  Every pass that does not end the loop has read a line with `fgets`
and left strictly less input; the number of passes made is therefore at most
the number of reads the input can supply plus one. -/
theorem laco_encerra (s : Estado) :
    (∃ s1, laco (s.stdin.length + 1) s = some s1) ∧
    (∀ (inicio : Sala) (stdin : List Nat) (stdout : List Msg),
      ∃ r, explorarSalas inicio stdin stdout = some r) ∧
    (∀ s1, iteracao s = Passo.continua s1 →
      s1.stdin.length < s.stdin.length ∧
        ∃ entrada, fgets 32 s.stdin = some (entrada, s1.stdin)) ∧
    (∀ n, s.stdin.length + 1 ≤ n → passes n s = passes (s.stdin.length + 1) s) ∧
    (∀ m, s.stdin.length ≤ m → leituras m s.stdin = leituras s.stdin.length s.stdin) ∧
    passes (s.stdin.length + 1) s ≤ leituras s.stdin.length s.stdin + 1 ∧
    leituras s.stdin.length s.stdin ≤ s.stdin.length := by
  obtain ⟨s1, h1⟩ := laco_termina (s.stdin.length + 1) s (Nat.lt_succ_self _)
  refine ⟨⟨s1, h1⟩, explorarSalas_retorna, ?_, ?_, ?_, passes_le _ _ s (Nat.le_refl _),
    leituras_le _ _⟩
  · intro s2 h2
    exact ⟨iteracao_continua_consome s s2 h2, iteracao_continua_leu s s2 h2⟩
  · intro n hn
    exact passes_mais _ n s s1 h1 hn
  · intro m hm
    exact leituras_mais m s.stdin hm

/-- On the demo map the input `x`, `y`, `d`, `d` supplies four reads and the
loop makes five passes, the last one at the leaf "Jardim Interno". -/
theorem laco_encerra_witness :
    passes 50 (estadoInicial
        ⟨"Hall de Entrada", mapaDemo.seguir [Lado.esq], mapaDemo.seguir [Lado.dir]⟩
        (bytes "x\ny\nd\nd\n") []) = 5 ∧
      leituras 8 (bytes "x\ny\nd\nd\n") = 4 :=
  have h := laco_encerra (estadoInicial
    ⟨"Hall de Entrada", mapaDemo.seguir [Lado.esq], mapaDemo.seguir [Lado.dir]⟩
    (bytes "x\ny\nd\nd\n") [])
  ⟨(h.2.2.2.1 50 (by decide)).trans (by decide), by decide⟩

/-! ## More input only extends the log -/

/-- A choice already made by the bytes read is not changed by bytes that
follow them. -/
theorem opc_append (c d : List Nat) (h : opc c ≠ 0) : opc (c ++ d) = opc c := by
  induction c with
  | nil => exact absurd opc_nil h
  | cons x l ih =>
    by_cases hx : isspace x = true
    · rw [List.cons_append, opc_cons_branco x (l ++ d) hx, opc_cons_branco x l hx]
      rw [opc_cons_branco x l hx] at h
      exact ih h
    · have hx2 : isspace x = false := by simpa using hx
      rw [List.cons_append, opc_cons_util x (l ++ d) hx2, opc_cons_util x l hx2]

/-- Reading from an input with more bytes after it: either the same bytes are
read and the added bytes stay in the input, or the shorter input was read to
its end and the longer read starts with the same bytes. -/
theorem lerLinha_append (k : Nat) (a b : List Nat) :
    lerLinha k (a ++ b) = ((lerLinha k a).1, (lerLinha k a).2 ++ b) ∨
      ((lerLinha k a).2 = [] ∧ ∃ d, (lerLinha k (a ++ b)).1 = (lerLinha k a).1 ++ d) := by
  induction k generalizing a with
  | zero => exact Or.inl (by simp [lerLinha])
  | succ k ih =>
    cases a with
    | nil => exact Or.inr ⟨by simp [lerLinha], (lerLinha (k + 1) b).1, by simp [lerLinha]⟩
    | cons c l =>
      by_cases hc : c = 10
      · exact Or.inl (by simp [lerLinha, hc])
      · rcases ih l with h | ⟨h1, d, h2⟩
        · exact Or.inl (by simp [lerLinha, hc, h])
        · exact Or.inr ⟨by simp [lerLinha, hc, h1], d, by simp [lerLinha, hc, h2]⟩

/-- The loop only appends to the log. -/
theorem laco_acrescenta (n : Nat) (s s1 : Estado) (h : laco n s = some s1) :
    ∃ extra, s1.visitadas = s.visitadas ++ extra := by
  induction n generalizing s with
  | zero => simp [laco] at h
  | succ n ih =>
    have he := iteracao_efeito s
    cases hp : iteracao s with
    | encerra s2 =>
      rw [hp] at he
      simp only [laco, hp, Option.some.injEq] at h
      subst h
      cases he with
      | fim _ _ hv _ => exact ⟨[], by rw [hv, List.append_nil]⟩
    | continua s2 =>
      rw [hp] at he
      simp only [laco, hp] at h
      obtain ⟨extra, hx⟩ := ih s2 h
      cases he with
      | repete _ _ hv _ => exact ⟨extra, by rw [hx, hv]⟩
      | move _ nome _ _ _ _ hv _ => exact ⟨nome :: extra, by rw [hx, hv]; simp⟩

/-- With no input left the loop ends with the log as it is. -/
theorem laco_sem_entrada (n : Nat) (s s1 : Estado) (h : laco n s = some s1)
    (hi : s.stdin = []) : s1.visitadas = s.visitadas := by
  cases n with
  | zero => simp [laco] at h
  | succ n =>
    have he := iteracao_efeito s
    cases hp : iteracao s with
    | encerra s2 =>
      rw [hp] at he
      simp only [laco, hp, Option.some.injEq] at h
      subst h
      cases he with
      | fim _ _ hv _ => exact hv
    | continua s2 =>
      have hc := iteracao_continua_consome s s2 hp
      rw [hi] at hc
      exact absurd hc (Nat.not_lt_zero _)

/-- The body acts in the same way on two states with the same cursor and
log. -/
theorem decidir_par (s t : Estado) (o : Nat) (ha : t.atual = s.atual)
    (hv : t.visitadas = s.visitadas) :
    (∃ s2 t2, decidir s o = Passo.encerra s2 ∧ decidir t o = Passo.encerra t2 ∧
      t2.visitadas = s2.visitadas) ∨
    (∃ s2 t2, decidir s o = Passo.continua s2 ∧ decidir t o = Passo.continua t2 ∧
      t2.atual = s2.atual ∧ t2.visitadas = s2.visitadas ∧
      s2.stdin = s.stdin ∧ t2.stdin = t.stdin) := by
  unfold decidir
  split
  · exact Or.inr ⟨_, _, rfl, rfl, ha, hv, rfl, rfl⟩
  split
  · exact Or.inl ⟨_, _, rfl, rfl, hv⟩
  split
  · rw [ha]
    cases hc : s.atual.esq with
    | nulo => exact Or.inr ⟨_, _, rfl, rfl, ha, hv, rfl, rfl⟩
    | no nome esq dir =>
      refine Or.inr ⟨_, _, rfl, rfl, rfl, ?_, rfl, rfl⟩
      show t.visitadas ++ [nome] = s.visitadas ++ [nome]
      rw [hv]
  split
  · rw [ha]
    cases hc : s.atual.dir with
    | nulo => exact Or.inr ⟨_, _, rfl, rfl, ha, hv, rfl, rfl⟩
    | no nome esq dir =>
      refine Or.inr ⟨_, _, rfl, rfl, rfl, ?_, rfl, rfl⟩
      show t.visitadas ++ [nome] = s.visitadas ++ [nome]
      rw [hv]
  · exact Or.inr ⟨_, _, rfl, rfl, ha, hv, rfl, rfl⟩

theorem fgets_some (stdin c resto : List Nat) (h : fgets 32 stdin = some (c, resto)) :
    stdin ≠ [] ∧ lerLinha 31 stdin = (c, resto) := by
  cases stdin with
  | nil => simp [fgets] at h
  | cons x l =>
    simp only [fgets, Option.some.injEq] at h
    exact ⟨List.cons_ne_nil x l, h⟩

theorem fgets_naoVazio (stdin : List Nat) (h : stdin ≠ []) :
    fgets 32 stdin = some (lerLinha 31 stdin) := by
  cases stdin with
  | nil => exact absurd rfl h
  | cons x l => rfl

theorem fgets_none (stdin : List Nat) (h : fgets 32 stdin = none) : stdin = [] := by
  cases stdin with
  | nil => rfl
  | cons x l => simp [fgets] at h

theorem tem_saida (c : Comodo) (h : ¬ (c.esq.existe = false ∧ c.dir.existe = false)) :
    c.esq.existe = true ∨ c.dir.existe = true := by
  by_cases h1 : c.esq.existe = true
  · exact Or.inl h1
  · by_cases h2 : c.dir.existe = true
    · exact Or.inr h2
    · simp at h1 h2
      exact absurd ⟨h1, h2⟩ h

/-- Two runs of the loop from the same cursor and log, the second on an input
that extends the input of the first: the log of the first is the beginning of
the log of the second. -/
theorem laco_extensao (n : Nat) :
    ∀ (m : Nat) (s t s1 t1 : Estado) (b : List Nat), t.atual = s.atual →
      t.visitadas = s.visitadas → t.stdin = s.stdin ++ b → laco n s = some s1 →
      laco m t = some t1 → ∃ extra, t1.visitadas = s1.visitadas ++ extra := by
  induction n with
  | zero =>
    intro m s t s1 t1 b _ _ _ hs _
    simp [laco] at hs
  | succ n ih =>
    intro m s t s1 t1 b ha hv hi hs ht
    cases m with
    | zero => simp [laco] at ht
    | succ m =>
      by_cases hf : s.atual.esq.existe = false ∧ s.atual.dir.existe = false
      · have hft : t.atual.esq.existe = false ∧ t.atual.dir.existe = false := by
          rw [ha]; exact hf
        have h1 : iteracao s = Passo.encerra (s.printf (Msg.semSaidas s.atual.nome)) := by
          simp only [iteracao, hf, and_self, if_true]
        have h2 : iteracao t = Passo.encerra (t.printf (Msg.semSaidas t.atual.nome)) := by
          simp only [iteracao, hft, and_self, if_true]
        simp only [laco, h1, Option.some.injEq] at hs
        simp only [laco, h2, Option.some.injEq] at ht
        subst hs
        subst ht
        exact ⟨[], by rw [List.append_nil]; exact hv⟩
      · have hsa := tem_saida s.atual hf
        have hta : t.atual.esq.existe = true ∨ t.atual.dir.existe = true := by
          rw [ha]; exact hsa
        cases hl : fgets 32 s.stdin with
        | none =>
          have h1 := laco_sem_entrada (n + 1) s s1 hs (fgets_none _ hl)
          obtain ⟨extra, h2⟩ := laco_acrescenta (m + 1) t t1 ht
          exact ⟨extra, by rw [h2, h1, hv]⟩
        | some par =>
          obtain ⟨c, resto⟩ := par
          obtain ⟨hne, hc⟩ := fgets_some _ _ _ hl
          have hnt : s.stdin ++ b ≠ [] := by
            intro h0
            exact hne (List.append_eq_nil.1 h0).1
          have hlt : fgets 32 t.stdin = some (lerLinha 31 (s.stdin ++ b)) := by
            rw [hi]
            exact fgets_naoVazio _ hnt
          have his := iteracao_lida s c resto hsa hl
          rcases lerLinha_append 31 s.stdin b with h | ⟨h1, d, h2⟩
          · rw [h, hc] at hlt
            have hit := iteracao_lida t c (resto ++ b) hta hlt
            rcases decidir_par { s with stdout := s.stdout ++ menu s.atual, stdin := resto }
              { t with stdout := t.stdout ++ menu t.atual, stdin := resto ++ b } (opc c) ha hv
              with ⟨s2, t2, e1, e2, e3⟩ | ⟨s2, t2, e1, e2, e3, e4, e5, e6⟩
            · rw [e1] at his
              rw [e2] at hit
              simp only [laco, his, Option.some.injEq] at hs
              simp only [laco, hit, Option.some.injEq] at ht
              subst hs
              subst ht
              exact ⟨[], by rw [List.append_nil]; exact e3⟩
            · rw [e1] at his
              rw [e2] at hit
              simp only [laco, his] at hs
              simp only [laco, hit] at ht
              exact ih m s2 t2 s1 t1 b e3 e4 (by rw [e5, e6]) hs ht
          · rw [hc] at h1 h2
            simp only at h1 h2
            subst h1
            have hlt2 : fgets 32 t.stdin = some (c ++ d, (lerLinha 31 (s.stdin ++ b)).2) := by
              rw [hlt, ← h2]
            have hit := iteracao_lida t (c ++ d) _ hta hlt2
            by_cases ho : opc c = 0
            · rw [ho, decidir_vazia] at his
              simp only [laco, his] at hs
              have h3 := laco_sem_entrada n _ s1 hs rfl
              obtain ⟨extra, h4⟩ := laco_acrescenta (m + 1) t t1 ht
              exact ⟨extra, by rw [h4, h3, hv]; rfl⟩
            · rw [opc_append c d ho] at hit
              rcases decidir_par { s with stdout := s.stdout ++ menu s.atual, stdin := [] }
                { t with
                  stdout := t.stdout ++ menu t.atual
                  stdin := (lerLinha 31 (s.stdin ++ b)).2 } (opc c) ha hv
                with ⟨s2, t2, e1, e2, e3⟩ | ⟨s2, t2, e1, e2, e3, e4, e5, e6⟩
              · rw [e1] at his
                rw [e2] at hit
                simp only [laco, his, Option.some.injEq] at hs
                simp only [laco, hit, Option.some.injEq] at ht
                subst hs
                subst ht
                exact ⟨[], by rw [List.append_nil]; exact e3⟩
              · rw [e1] at his
                rw [e2] at hit
                simp only [laco, his] at hs
                simp only [laco, hit] at ht
                exact ih m s2 t2 s1 t1 (lerLinha 31 (s.stdin ++ b)).2 e3 e4
                  (by rw [e5, e6]; rfl) hs ht

/-- C17: for every map with a root and all inputs `a` and `b`, the visit log
`explorarSalas` produces on `a` is the beginning of the visit log it produces
on `a` followed by `b`: the entries recorded on `a` are all there, in the same
places, and further input only adds entries after them. -/
theorem registro_so_cresce (nome : String) (esq dir : Sala) (a b : List Nat)
    (stdout : List Msg) :
    ∃ sa sb extra,
      explorarSalas (Sala.no nome esq dir) a stdout = some (Resultado.explorado sa) ∧
      explorarSalas (Sala.no nome esq dir) (a ++ b) stdout = some (Resultado.explorado sb) ∧
      sb.visitadas = sa.visitadas ++ extra := by
  obtain ⟨s1, h1⟩ := laco_termina (a.length + 1)
    (estadoInicial ⟨nome, esq, dir⟩ a stdout) (Nat.lt_succ_self _)
  obtain ⟨t1, h2⟩ := laco_termina ((a ++ b).length + 1)
    (estadoInicial ⟨nome, esq, dir⟩ (a ++ b) stdout) (Nat.lt_succ_self _)
  obtain ⟨extra, h3⟩ := laco_extensao (a.length + 1) ((a ++ b).length + 1)
    (estadoInicial ⟨nome, esq, dir⟩ a stdout) (estadoInicial ⟨nome, esq, dir⟩ (a ++ b) stdout)
    s1 t1 b rfl rfl rfl h1 h2
  have ha : explorarSalas (Sala.no nome esq dir) a stdout =
      (laco (a.length + 1) (estadoInicial ⟨nome, esq, dir⟩ a stdout)).map
        fun s => Resultado.explorado s.exibirCaminho := rfl
  have hb : explorarSalas (Sala.no nome esq dir) (a ++ b) stdout =
      (laco ((a ++ b).length + 1) (estadoInicial ⟨nome, esq, dir⟩ (a ++ b) stdout)).map
        fun s => Resultado.explorado s.exibirCaminho := rfl
  exact ⟨s1.exibirCaminho, t1.exibirCaminho, extra, by rw [ha, h1]; rfl, by rw [hb, h2]; rfl,
    h3⟩

/-- On the demo map the log of the input `d` without its newline (hall,
"Biblioteca") is the beginning of the log of the input `d`, newline, `e` (hall,
"Biblioteca", "Escritório"). -/
theorem registro_so_cresce_witness :
    ∃ sa sb extra,
      explorarSalas mapaDemo (bytes "d") [] = some (Resultado.explorado sa) ∧
      explorarSalas mapaDemo (bytes "d" ++ bytes "\ne\n") [] = some (Resultado.explorado sb) ∧
      sb.visitadas = sa.visitadas ++ extra :=
  registro_so_cresce "Hall de Entrada" (mapaDemo.seguir [Lado.esq])
    (mapaDemo.seguir [Lado.dir]) (bytes "d") (bytes "\ne\n") []

/-! ## The array of visited rooms -/

theorem take_succ_set {α : Type} (l : List α) (i : Nat) (x : α) (h : i < l.length) :
    (l.set i x).take (i + 1) = l.take i ++ [x] := by
  induction l generalizing i with
  | nil => simp at h
  | cons a l ih =>
    cases i with
    | zero => simp
    | succ i =>
      have hi : i < l.length := by simpa using h
      simp [ih i hi]

theorem realloc_maior (bloco : List (Option String)) (n : Nat) (h : bloco.length ≤ n) :
    realloc bloco n = bloco ++ List.replicate (n - bloco.length) none := by
  simp [realloc, List.take_of_length_le h]

/-- After the growth test the write is inside the block and the capacity is
still 8 times a power of two. -/
theorem crescer_cabe (cont capacidade : Nat) (h : cont ≤ capacidade)
    (hp : ∃ j, capacidade = 8 * 2 ^ j) :
    cont < crescer cont capacidade ∧ ∃ j, crescer cont capacidade = 8 * 2 ^ j := by
  obtain ⟨j, hj⟩ := hp
  have hpos : 0 < capacidade := by
    rw [hj]
    exact Nat.mul_pos (by decide) (Nat.two_pow_pos j)
  unfold crescer
  split
  · exact ⟨by omega, j + 1, by rw [hj, Nat.pow_succ]; omega⟩
  · exact ⟨by omega, j, hj⟩

/-- One write on a consistent block: it falls inside the block, and the
slots written before keep their contents. -/
theorem vetor_registrar (v : Vetor) (nome : String) (hc : v.cont ≤ v.capacidade)
    (hl : v.visitadas.length = v.capacidade) (hpos : 0 < v.capacidade) :
    ∃ v1, v.registrar nome = some v1 ∧ v.cont < v1.capacidade ∧ v1.cont = v.cont + 1 ∧
      v1.cont ≤ v1.capacidade ∧ v1.capacidade = crescer v.cont v.capacidade ∧
      v1.visitadas.length = v1.capacidade ∧
      (∀ i, i < v.cont → v1.visitadas[i]? = v.visitadas[i]?) ∧
      v1.visitadas[v.cont]? = some (some nome) ∧
      v1.visitadas.take v1.cont = v.visitadas.take v.cont ++ [some nome] := by
  by_cases hg : v.cont + 1 > v.capacidade
  · have hr := realloc_maior v.visitadas (v.capacidade * 2) (by omega)
    have hlen : (realloc v.visitadas (v.capacidade * 2)).length = v.capacidade * 2 := by
      rw [hr]
      simp
      omega
    have hin : v.cont < (realloc v.visitadas (v.capacidade * 2)).length := by omega
    refine ⟨{ visitadas := (realloc v.visitadas (v.capacidade * 2)).set v.cont (some nome)
              capacidade := v.capacidade * 2
              cont := v.cont + 1 }, ?_, ?_, rfl, ?_, ?_, ?_, ?_, ?_, ?_⟩
    · simp [Vetor.registrar, hg, hin]
    · show v.cont < v.capacidade * 2
      omega
    · show v.cont + 1 ≤ v.capacidade * 2
      omega
    · simp [crescer, hg]
    · simp [hlen]
    · intro i hi
      show ((realloc v.visitadas (v.capacidade * 2)).set v.cont (some nome))[i]? = _
      rw [List.getElem?_set_ne (by omega), hr, List.getElem?_append_left (by omega)]
    · show ((realloc v.visitadas (v.capacidade * 2)).set v.cont (some nome))[v.cont]? = _
      rw [List.getElem?_set_self hin]
    · show ((realloc v.visitadas (v.capacidade * 2)).set v.cont (some nome)).take (v.cont + 1) = _
      rw [take_succ_set _ _ _ hin, hr, List.take_append_of_le_length (by omega)]
  · have hin : v.cont < v.visitadas.length := by omega
    refine ⟨{ visitadas := v.visitadas.set v.cont (some nome)
              capacidade := v.capacidade
              cont := v.cont + 1 }, ?_, ?_, rfl, ?_, ?_, ?_, ?_, ?_, ?_⟩
    · simp [Vetor.registrar, hg, hin]
    · show v.cont < v.capacidade
      omega
    · show v.cont + 1 ≤ v.capacidade
      omega
    · simp [crescer, hg]
    · simp [hl]
    · intro i hi
      show (v.visitadas.set v.cont (some nome))[i]? = _
      rw [List.getElem?_set_ne (by omega)]
    · show (v.visitadas.set v.cont (some nome))[v.cont]? = _
      rw [List.getElem?_set_self hin]
    · show (v.visitadas.set v.cont (some nome)).take (v.cont + 1) = _
      rw [take_succ_set _ _ _ hin]

theorem aposEscritas_snoc (nomes : List String) (nome : String) :
    Vetor.aposEscritas (nomes ++ [nome]) =
      (Vetor.aposEscritas nomes).bind fun v => v.registrar nome := by
  simp [Vetor.aposEscritas, List.foldl_append]

/-- Appending an entry to a consistent log leaves it consistent. -/
theorem registrar_vetorOk (s : Estado) (h : s.vetorOk) : s.registrar.vetorOk := by
  obtain ⟨hc, hp, v, hv, hcap, hcont, hlen, htake⟩ := h
  have hcr := crescer_cabe s.cont s.capacidade hc hp
  have hpos : 0 < v.capacidade := by
    obtain ⟨j, hj⟩ := hp
    rw [hcap, hj]
    exact Nat.mul_pos (by decide) (Nat.two_pow_pos j)
  obtain ⟨v1, h1, _, h3, _, h5, h6, _, _, h9⟩ :=
    vetor_registrar v s.atual.nome (by rw [hcap, hcont]; exact hc) hlen hpos
  refine ⟨?_, hcr.2, v1, ?_, ?_, ?_, h6, ?_⟩
  · show (s.visitadas ++ [s.atual.nome]).length ≤ crescer s.cont s.capacidade
    rw [List.length_append, List.length_singleton]
    exact hcr.1
  · show Vetor.aposEscritas (s.visitadas ++ [s.atual.nome]) = some v1
    rw [aposEscritas_snoc, hv]
    exact h1
  · show v1.capacidade = crescer s.cont s.capacidade
    rw [h5, hcont, hcap]
  · show v1.cont = (s.visitadas ++ [s.atual.nome]).length
    rw [h3, hcont]
    simp [Estado.cont]
  · show v1.visitadas.take v1.cont = (s.visitadas ++ [s.atual.nome]).map some
    rw [h9, htake]
    simp

theorem estadoInicial_vetorOk (inicio : Comodo) (stdin : List Nat) (stdout : List Msg) :
    (estadoInicial inicio stdin stdout).vetorOk := by
  have h0 : Estado.vetorOk
      { atual := inicio, visitadas := [], capacidade := 8, stdin := stdin, stdout := stdout } :=
    ⟨by simp [Estado.cont], ⟨0, rfl⟩, Vetor.inicial, rfl, rfl, rfl, rfl, rfl⟩
  exact registrar_vetorOk _ h0

theorem vetorOk_mesmo (s t : Estado) (hv : t.visitadas = s.visitadas)
    (hc : t.capacidade = s.capacidade) (h : s.vetorOk) : t.vetorOk := by
  unfold Estado.vetorOk Estado.cont at h ⊢
  rw [hv, hc]
  exact h

theorem entrar_vetorOk (s : Estado) (c : Comodo) (h : s.vetorOk) : (s.entrar c).vetorOk := by
  have h1 : Estado.vetorOk { s with atual := c } := vetorOk_mesmo s _ rfl rfl h
  exact vetorOk_mesmo _ _ rfl rfl (registrar_vetorOk _ h1)

theorem decidir_vetorOk (s : Estado) (o : Nat) (h : s.vetorOk) :
    (decidir s o).estado.vetorOk := by
  unfold decidir
  split
  · exact vetorOk_mesmo s _ rfl rfl h
  split
  · exact vetorOk_mesmo s _ rfl rfl h
  split
  · cases hc : s.atual.esq with
    | nulo => exact vetorOk_mesmo s _ rfl rfl h
    | no nome esq dir => exact entrar_vetorOk s _ h
  split
  · cases hc : s.atual.dir with
    | nulo => exact vetorOk_mesmo s _ rfl rfl h
    | no nome esq dir => exact entrar_vetorOk s _ h
  · exact vetorOk_mesmo s _ rfl rfl h

/-- A pass keeps the array consistent. -/
theorem iteracao_vetorOk (s : Estado) (h : s.vetorOk) : (iteracao s).estado.vetorOk := by
  by_cases hf : s.atual.esq.existe = false ∧ s.atual.dir.existe = false
  · simp only [iteracao, hf, and_self, if_true]
    exact vetorOk_mesmo s _ rfl rfl h
  · cases hl : fgets 32 s.stdin with
    | none =>
      simp only [iteracao, hf, if_false, hl]
      exact vetorOk_mesmo s _ rfl rfl h
    | some par =>
      obtain ⟨entrada, resto⟩ := par
      simp only [iteracao, hf, if_false, hl]
      exact decidir_vetorOk _ _ (vetorOk_mesmo s _ rfl rfl h)

theorem aposPasses_vetorOk (k : Nat) (s0 s : Estado) (h0 : s0.vetorOk)
    (h : aposPasses k s0 = some s) : s.vetorOk := by
  induction k generalizing s0 with
  | zero =>
    simp only [aposPasses, Option.some.injEq] at h
    subst h
    exact h0
  | succ k ih =>
    have he := iteracao_vetorOk s0 h0
    cases hp : iteracao s0 with
    | encerra s2 => simp [aposPasses, hp] at h
    | continua s2 =>
      rw [hp] at he
      simp only [aposPasses, hp] at h
      exact ih s2 he h

theorem laco_vetorOk (n : Nat) (s0 s : Estado) (h0 : s0.vetorOk)
    (h : laco n s0 = some s) : s.vetorOk := by
  induction n generalizing s0 with
  | zero => simp [laco] at h
  | succ n ih =>
    have he := iteracao_vetorOk s0 h0
    cases hp : iteracao s0 with
    | encerra s2 =>
      rw [hp] at he
      simp only [laco, hp, Option.some.injEq] at h
      subst h
      exact he
    | continua s2 =>
      rw [hp] at he
      simp only [laco, hp] at h
      exact ih s2 he h

/-- C18: in every run of `explorarSalas` on a map with a root, at every loop
head and at the end, `cont <= capacidade`, `capacidade` is 8 times a power of
two, the next write `visitadas[cont++]` would fall at an index below the
capacity left by the growth test, and the writes made so far, replayed on a
fresh block of 8 slots, all fell inside the block and left a block of
`capacidade` slots whose first `cont` slots hold the log.  The first write is
at index 0 of 8 slots.  The capacity is doubled exactly when `cont + 1 >
capacidade`, and one write on a consistent block falls inside it, adds one to
`cont`, keeps `cont <= capacidade` and leaves every slot written before as it
was, also across a doubling. -/
theorem vetor_seguro (nome : String) (esq dir : Sala) (stdin : List Nat) (stdout : List Msg) :
    (∀ (k : Nat) (s : Estado),
      aposPasses k (estadoInicial ⟨nome, esq, dir⟩ stdin stdout) = some s →
      s.cont ≤ s.capacidade ∧ (∃ j, s.capacidade = 8 * 2 ^ j) ∧
        s.cont < crescer s.cont s.capacidade ∧
        ∃ v, Vetor.aposEscritas s.visitadas = some v ∧ v.capacidade = s.capacidade ∧
          v.cont = s.cont ∧ v.visitadas.length = v.capacidade ∧
          v.visitadas.take v.cont = s.visitadas.map some) ∧
    (∃ s, explorarSalas (Sala.no nome esq dir) stdin stdout = some (Resultado.explorado s) ∧
      s.cont ≤ s.capacidade ∧ (∃ j, s.capacidade = 8 * 2 ^ j) ∧
        ∃ v, Vetor.aposEscritas s.visitadas = some v ∧ v.capacidade = s.capacidade ∧
          v.cont = s.cont ∧ v.visitadas.length = v.capacidade ∧
          v.visitadas.take v.cont = s.visitadas.map some) ∧
    (Vetor.inicial.capacidade = 8 ∧ Vetor.inicial.cont = 0 ∧
      Vetor.inicial.visitadas.length = 8 ∧ crescer 0 8 = 8) ∧
    (∀ cont capacidade : Nat,
      crescer cont capacidade = if cont + 1 > capacidade then capacidade * 2 else capacidade) ∧
    (∀ (v : Vetor) (novo : String), v.cont ≤ v.capacidade →
      v.visitadas.length = v.capacidade → 0 < v.capacidade →
      ∃ v1, v.registrar novo = some v1 ∧ v.cont < v1.capacidade ∧ v1.cont = v.cont + 1 ∧
        v1.cont ≤ v1.capacidade ∧ v1.capacidade = crescer v.cont v.capacidade ∧
        v1.visitadas.length = v1.capacidade ∧
        (∀ i, i < v.cont → v1.visitadas[i]? = v.visitadas[i]?) ∧
        v1.visitadas[v.cont]? = some (some novo) ∧
        v1.visitadas.take v1.cont = v.visitadas.take v.cont ++ [some novo]) := by
  refine ⟨?_, ?_, ⟨rfl, rfl, rfl, rfl⟩, fun _ _ => rfl, vetor_registrar⟩
  · intro k s hk
    have h := aposPasses_vetorOk k _ s (estadoInicial_vetorOk _ stdin stdout) hk
    exact ⟨h.1, h.2.1, (crescer_cabe s.cont s.capacidade h.1 h.2.1).1, h.2.2⟩
  · obtain ⟨s1, h1⟩ := laco_termina (stdin.length + 1)
      (estadoInicial ⟨nome, esq, dir⟩ stdin stdout) (Nat.lt_succ_self _)
    have h := laco_vetorOk _ _ s1 (estadoInicial_vetorOk _ stdin stdout) h1
    have hx : explorarSalas (Sala.no nome esq dir) stdin stdout =
        (laco (stdin.length + 1) (estadoInicial ⟨nome, esq, dir⟩ stdin stdout)).map
          fun s => Resultado.explorado s.exibirCaminho := rfl
    exact ⟨s1.exibirCaminho, by rw [hx, h1]; rfl, h⟩

/-- The ninth write, on a full block of 8 slots, doubles the block to 16 slots
and lands at index 8; the eight entries written before are still there. -/
theorem vetor_seguro_witness :
    ∃ v1, Vetor.registrar
        { visitadas := ["a", "b", "c", "d", "e", "f", "g", "h"].map some
          capacidade := 8
          cont := 8 } "i" = some v1 ∧
      8 < v1.capacidade ∧ v1.cont = 8 + 1 ∧ v1.capacidade = 16 ∧
      v1.visitadas.take v1.cont = ["a", "b", "c", "d", "e", "f", "g", "h", "i"].map some :=
  match (vetor_seguro "Hall de Entrada" Sala.nulo Sala.nulo [] []).2.2.2.2
    { visitadas := ["a", "b", "c", "d", "e", "f", "g", "h"].map some
      capacidade := 8
      cont := 8 } "i" (by decide) (by decide) (by decide) with
  | ⟨v1, h1, h2, h3, _, h5, _, _, _, h9⟩ => ⟨v1, h1, h2, h3, h5, h9⟩

end DetectiveQuest
